import Mathlib

/-!
Shallow embedding of the Connect-Four MCTS engine (`src/main.rs`).

Machine integers (`u64`) are modelled as `ℕ`: every bit index used by the
program is at most 46, and the only operations are `&`, `|`, `^`, `<<`, `>>`,
so no wrap-around can occur and the embedding is exact.  The `f64` values used
by UCT selection and best-move extraction are modelled as real numbers
(`Real.logb 2` for `f64::log2`, `Real.sqrt` for `f64::sqrt`); functions that
compute with them are `noncomputable` but all branching on them is settled by
proof, never by evaluation.  Recursive functions that walk the node arena
(`selection`, `backpropagation`) or play out a game (`simulation`) take an
explicit fuel argument; out-of-fuel returns the "no further work" result
(for `simulation`, `none`).  The global thread RNG is modelled as an explicit
stream `ℕ → ℕ` of draws, reduced modulo the number of legal moves.
-/

namespace Connect4

/-- `const FULL_GRID: u64`: the 42 playable cells; bit `y*8+x` for
row `y < 6`, column `x < 7`, with bit `y*8+7` left as padding. -/
def FULL_GRID : ℕ := 0b11111110111111101111111011111110111111101111111

/-- `const UCTC: f64 = 2.0`. -/
noncomputable def UCTC : ℝ := 2

/-- `fn get_moves(p1: u64, p2: u64) -> Vec<(u64, u64)>`: for each column
`x` in `0..7` find the first row `y` in `0..6` whose cell is empty and push
`(p2, p1 | 1 << (y*8+x))`. -/
def get_moves (p1 p2 : ℕ) : List (ℕ × ℕ) :=
  (List.range 7).filterMap fun x =>
    ((List.range 6).find? fun y => (1 <<< (y * 8 + x)) &&& (p1 ||| p2) == 0).map
      fun y => (p2, p1 ||| (1 <<< (y * 8 + x)))

/-- `fn is_winning(player: u64) -> bool`: four direction-shift conjunctions
(horizontal 1/2/3, vertical 8/16/24, the two diagonals 9/18/27 and 7/14/21). -/
def is_winning (player : ℕ) : Bool :=
  if player &&& (player >>> 1) &&& (player >>> 2) &&& (player >>> 3) ≠ 0 then true
  else if player &&& (player >>> 8) &&& (player >>> 16) &&& (player >>> 24) ≠ 0 then true
  else if player &&& (player >>> 9) &&& (player >>> 18) &&& (player >>> 27) ≠ 0 then true
  else if player &&& (player >>> 7) &&& (player >>> 14) &&& (player >>> 21) ≠ 0 then true
  else false

/-- `enum STATUS`. -/
inductive STATUS where
  | PLAYING
  | WON
  | LOST
  | DRAW
deriving DecidableEq, Repr

/-- `fn get_status(p1: u64, p2: u64) -> STATUS`. -/
def get_status (p1 p2 : ℕ) : STATUS :=
  if is_winning p1 then STATUS.WON
  else if is_winning p2 then STATUS.LOST
  else if FULL_GRID = p1 ||| p2 then STATUS.DRAW
  else STATUS.PLAYING

/-- `struct Node`. -/
structure Node where
  state : ℕ × ℕ
  children : List ℕ
  parent : Option ℕ
  score : ℕ
  nb_visit : ℕ
  status : STATUS
deriving DecidableEq, Repr

/-- Default node used to give `Vec` indexing (`graph[i]`) a total meaning;
every claim is stated under hypotheses that keep all indices in bounds, so
the default is never observed. -/
def d0 : Node :=
  { state := (0, 0), children := [], parent := none, score := 0, nb_visit := 0,
    status := STATUS.PLAYING }

/-- The arena `Vec<Node>`. -/
abbrev Graph := List Node

/-- The `f64` value `graph[child].score as f64 / graph[child].nb_visit as f64`. -/
noncomputable def childValue (g : Graph) (c : ℕ) : ℝ :=
  ((g.getD c d0).score : ℝ) / ((g.getD c d0).nb_visit : ℝ)

/-- The UCT value computed in `selection`:
`score/visits + UCTC * sqrt(log2(parent visits) / child visits)`. -/
noncomputable def uct (g : Graph) (node c : ℕ) : ℝ :=
  childValue g c
    + UCTC * Real.sqrt (Real.logb 2 ((g.getD node d0).nb_visit : ℝ)
        / ((g.getD c d0).nb_visit : ℝ))

/-- The `best_child`/`best_score` accumulation loop of `selection`:
replace the running best only on a strict `>`. -/
noncomputable def bestChildAux (g : Graph) (node : ℕ) :
    List ℕ → Option ℕ → Option ℝ → Option ℕ
  | [], best, _ => best
  | c :: rest, best, bestScore =>
    match bestScore with
    | none => bestChildAux g node rest (some c) (some (uct g node c))
    | some s =>
      if uct g node c > s then bestChildAux g node rest (some c) (some (uct g node c))
      else bestChildAux g node rest best bestScore

/-- `fn selection(node: usize, graph: &mut Vec<Node>) -> usize`, with fuel;
returns the working node together with the (possibly extended) arena. -/
noncomputable def selection : ℕ → ℕ → Graph → ℕ × Graph
  | 0, node, g => (node, g)
  | fuel + 1, node, g =>
    let nd := g.getD node d0
    if nd.status ≠ STATUS.PLAYING then (node, g)
    else
      let moves := get_moves nd.state.1 nd.state.2
      if moves.length = 0 then (node, g)
      else if moves.length = nd.children.length then
        match bestChildAux g node nd.children none none with
        | some c => selection fuel c g
        | none => (node, g)
      else
        let child_move := moves.getD nd.children.length (0, 0)
        let child := g.length
        let newNode : Node :=
          { state := child_move, children := [], parent := some node, score := 0,
            nb_visit := 0, status := get_status child_move.1 child_move.2 }
        (child, (g ++ [newNode]).set node { nd with children := nd.children ++ [child] })

/-- `fn simulation(p1: u64, p2: u64) -> u64`, with fuel and an explicit
stream of random draws (`rng 0` is this ply's draw, reduced mod the number
of legal moves, exactly the range `gen_range(0..moves.len())` samples). -/
def simulation : ℕ → (ℕ → ℕ) → ℕ → ℕ → Option ℕ
  | 0, _, _, _ => none
  | fuel + 1, rng, p1, p2 =>
    if is_winning p2 then some 2
    else if p1 ||| p2 = FULL_GRID then some 1
    else
      let moves := get_moves p1 p2
      let m := moves.getD (rng 0 % moves.length) (0, 0)
      (simulation fuel (fun n => rng (n + 1)) m.1 m.2).map fun r => [2, 1, 0].getD r 0

/-- `fn backpropagation(node: usize, graph: &mut Vec<Node>, score: u64)`,
with fuel. -/
def backpropagation : ℕ → ℕ → Graph → ℕ → Graph
  | 0, _, g, _ => g
  | fuel + 1, node, g, score =>
    let nd := g.getD node d0
    let g2 := g.set node { nd with nb_visit := nd.nb_visit + 1, score := nd.score + score }
    match nd.parent with
    | some parent => backpropagation fuel parent g2 ([2, 1, 0].getD score 0)
    | none => g2

/-- The best-move extraction loop at the end of `mcst`: plain average
`score/visits`, replace only on strict `>`; returns `(value, state, index)`. -/
noncomputable def bestMoveAux (g : Graph) :
    List ℕ → Option (ℝ × (ℕ × ℕ) × ℕ) → Option (ℝ × (ℕ × ℕ) × ℕ)
  | [], acc => acc
  | c :: rest, acc =>
    match acc with
    | none => bestMoveAux g rest (some (childValue g c, (g.getD c d0).state, c))
    | some (bs, st, bx) =>
      if childValue g c > bs then
        bestMoveAux g rest (some (childValue g c, (g.getD c d0).state, c))
      else bestMoveAux g rest (some (bs, st, bx))

/-- The final extraction of `mcst` over the root's children;
`none` corresponds to the unwrap-panic on a childless root. -/
noncomputable def bestMove (g : Graph) (root : ℕ) : Option (ℝ × (ℕ × ℕ) × ℕ) :=
  bestMoveAux g (g.getD root d0).children none

/-- One iteration of the `mcst` search loop:
selection/expansion, simulation from the working node, backpropagation. -/
noncomputable def mcstIteration (fuelS fuelSim : ℕ) (rng : ℕ → ℕ) (g : Graph)
    (root : ℕ) : Graph :=
  let wg := selection fuelS root g
  let st := (wg.2.getD wg.1 d0).state
  let score := (simulation fuelSim rng st.1 st.2).getD 0
  backpropagation wg.2.length wg.1 wg.2 score

/-- The `while now.elapsed() < TIME_PER_MOVE` loop of `mcst`, modelled as a
fixed number of iterations (the deadline is only tested at iteration
boundaries, so a run under the wall clock is a run for some `iters`). -/
noncomputable def mcstLoop (fuelS fuelSim : ℕ) (rng : ℕ → ℕ → ℕ) (root : ℕ) :
    ℕ → Graph → Graph
  | 0, g => g
  | n + 1, g => mcstLoop fuelS fuelSim rng root n (mcstIteration fuelS fuelSim (rng n) g root)

/-- `fn mcst(graph, root, time) -> (f64, (u64, u64), Vec<Node>, usize)`:
run the loop, then extract the best child of the root. -/
noncomputable def mcst (fuelS fuelSim : ℕ) (rng : ℕ → ℕ → ℕ) (g : Graph) (root : ℕ)
    (iters : ℕ) : Option (ℝ × (ℕ × ℕ) × ℕ) × Graph :=
  let g2 := mcstLoop fuelS fuelSim rng root iters g
  (bestMove g2 root, g2)

/-- `fn init_graph() -> Vec<Node>`. -/
def init_graph : Graph :=
  [{ state := (0, 0), children := [], parent := none, score := 0, nb_visit := 0,
     status := get_status 0 0 }]

/-- The tree-reuse step of `main` after a human move produced state `s`:
scan the root's children for one whose state equals `s`; if the root did not
change, overwrite its state in place. -/
def update_root (g : Graph) (root : ℕ) (s : ℕ × ℕ) : ℕ × Graph :=
  let newRoot :=
    match (g.getD root d0).children.find? (fun c => (g.getD c d0).state == s) with
    | some c => c
    | none => root
  if root = newRoot then
    (newRoot, g.set newRoot { g.getD newRoot d0 with state := s })
  else (newRoot, g)

/-- A well-formed board: the two stone masks are disjoint and lie inside the
playable cells. -/
def wfState (p1 p2 : ℕ) : Prop :=
  p1 &&& p2 = 0 ∧ (p1 ||| p2) &&& FULL_GRID = p1 ||| p2

/-- Number of empty playable cells of a grid mask. -/
def emptyCells (grid : ℕ) : ℕ :=
  ((Finset.range 48).filter fun i => FULL_GRID.testBit i ∧ ¬ grid.testBit i).card

/-- The inner column scan of `get_moves`: the first row `0 ≤ y < 6` whose
cell in column `x` is empty, if any. -/
def colScan (grid x : ℕ) : Option ℕ :=
  (List.range 6).find? fun y => (1 <<< (y * 8 + x)) &&& grid == 0

/-- The lowest empty row of a non-full column (row `0` as an unused default
for full columns). -/
def lowY (grid x : ℕ) : ℕ := (colScan grid x).getD 0

/-- A concrete arena used as a test input: a `PLAYING` empty-board root that
is fully expanded, its seven children all carrying one visit and score one. -/
def rootN : Node :=
  { state := (0, 0), children := [1, 2, 3, 4, 5, 6, 7], parent := none, score := 7,
    nb_visit := 7, status := STATUS.PLAYING }

/-- A child of `rootN` holding the column-`x` first move. -/
def childN (x : ℕ) : Node :=
  { state := (0, 1 <<< x), children := [], parent := some 0, score := 1, nb_visit := 1,
    status := STATUS.PLAYING }

/-- The concrete arena with `rootN` fully expanded. -/
def gFull : Graph :=
  [rootN, childN 0, childN 1, childN 2, childN 3, childN 4, childN 5, childN 6]

/-- `c` is the first element of `l` attaining the strict maximum of `f`. -/
def firstArgmax (f : ℕ → ℝ) (l : List ℕ) (c : ℕ) : Prop :=
  ∃ pre post, l = pre ++ c :: post ∧ (∀ j ∈ pre, f j < f c) ∧ ∀ j ∈ l, f j ≤ f c

/-- Four contiguous cells of the 7×6 board, all set in `m`: a horizontal,
vertical, or diagonal line. -/
def hasLine (m : ℕ) : Prop :=
  (∃ x ≤ 3, ∃ y ≤ 5, ∀ k < 4, m.testBit (y * 8 + (x + k)))
  ∨ (∃ x ≤ 6, ∃ y ≤ 2, ∀ k < 4, m.testBit ((y + k) * 8 + x))
  ∨ (∃ x ≤ 3, ∃ y ≤ 2, ∀ k < 4, m.testBit ((y + k) * 8 + (x + k)))
  ∨ (∃ x, 3 ≤ x ∧ x ≤ 6 ∧ ∃ y ≤ 2, ∀ k < 4, m.testBit ((y + k) * 8 + (x - k)))

/-- The node pushed by the expansion branch of `selection`: the next untried
move in generator order, no children, parent link to the expanded node, zero
score and visits, and an eagerly computed status. -/
def expandChild (g : Graph) (node : ℕ) : Node :=
  { state := (get_moves (g.getD node d0).state.1 (g.getD node d0).state.2).getD
      (g.getD node d0).children.length (0, 0),
    children := [], parent := some node, score := 0, nb_visit := 0,
    status := get_status
      ((get_moves (g.getD node d0).state.1 (g.getD node d0).state.2).getD
        (g.getD node d0).children.length (0, 0)).1
      ((get_moves (g.getD node d0).state.1 (g.getD node d0).state.2).getD
        (g.getD node d0).children.length (0, 0)).2 }

/-- The arena after the expansion branch of `selection`: the new child is
pushed and its index appended to the expanded node's child list. -/
def expandGraph (g : Graph) (node : ℕ) : Graph :=
  (g ++ [expandChild g node]).set node
    { g.getD node d0 with children := (g.getD node d0).children ++ [g.length] }

/-- The node update applied by one `backpropagation` step:
`nb_visit += 1; score += s`. -/
def bumpNode (g : Graph) (node s : ℕ) : Node :=
  { g.getD node d0 with
    nb_visit := (g.getD node d0).nb_visit + 1,
    score := (g.getD node d0).score + s }

/-- A concrete two-node arena: a root and one child, no visits yet. -/
def gChain : Graph :=
  [{ state := (0, 0), children := [1], parent := none, score := 0, nb_visit := 0,
     status := STATUS.PLAYING },
   { state := (0, 1), children := [], parent := some 0, score := 0, nb_visit := 0,
     status := STATUS.PLAYING }]

/-- The chain of nodes `backpropagation` walks: the node, then its parents. -/
def parentChain : ℕ → ℕ → Graph → List ℕ
  | 0, _, _ => []
  | fuel + 1, node, g =>
    node :: (match (g.getD node d0).parent with
      | some p => parentChain fuel p g
      | none => [])

/-- The visit-count invariant maintained by the search loop: every node has
been visited at least as often as it has children, and every recorded child
has been visited at least once. -/
def Inv (g : Graph) : Prop :=
  ∀ n, n < g.length →
    (g.getD n d0).children.length ≤ (g.getD n d0).nb_visit ∧
    ∀ c ∈ (g.getD n d0).children, 1 ≤ (g.getD c d0).nb_visit

/-- Structural well-formedness of the arena: parent links point strictly
downwards (to older nodes) and child links stay in bounds. -/
def WFgraph (g : Graph) : Prop :=
  ∀ n, n < g.length →
    (∀ p, (g.getD n d0).parent = some p → p < n) ∧
    ∀ c ∈ (g.getD n d0).children, c < g.length

/-- States reachable from `s0` by `get_moves` transitions taken only out of
`PLAYING` states — the only transitions the engine ever takes. -/
inductive Reach (s0 : ℕ × ℕ) : ℕ × ℕ → Prop
  | refl : Reach s0 s0
  | step {s m : ℕ × ℕ} : Reach s0 s → get_status s.1 s.2 = STATUS.PLAYING →
      m ∈ get_moves s.1 s.2 → Reach s0 m

end Connect4

namespace Connect4

/-! ### Generic arena and bit-level helper lemmas -/

theorem getD_set_self (g : Graph) (n : ℕ) (v : Node) (h : n < g.length) :
    (g.set n v).getD n d0 = v := by
  rw [List.getD_eq_getElem _ _ (by simpa using h)]
  exact List.getElem_set_self _

theorem getD_set_ne (g : Graph) (n : ℕ) (v : Node) (m : ℕ) (h : n ≠ m) :
    (g.set n v).getD m d0 = g.getD m d0 := by
  by_cases hm : m < g.length
  · rw [List.getD_eq_getElem _ _ (by simpa using hm), List.getD_eq_getElem _ _ hm]
    exact List.getElem_set_ne h _
  · rw [List.getD_eq_default _ _ (by simp; omega), List.getD_eq_default _ _ (by omega)]

theorem one_shiftLeft_eq (i : ℕ) : 1 <<< i = 2 ^ i := by
  rw [Nat.shiftLeft_eq, one_mul]

theorem land_eq_zero_iff {a b : ℕ} :
    a &&& b = 0 ↔ ∀ j, ¬(a.testBit j = true ∧ b.testBit j = true) := by
  constructor
  · intro h j ⟨ha, hb⟩
    have := congrArg (fun n => n.testBit j) h
    simp only [Nat.testBit_land, Nat.zero_testBit, ha, hb] at this
    exact Bool.true_eq_false.mp this
  · intro h
    apply Nat.eq_of_testBit_eq
    intro j
    simp only [Nat.testBit_land, Nat.zero_testBit]
    cases ha : a.testBit j with
    | false => rfl
    | true =>
      cases hb : b.testBit j with
      | false => rfl
      | true => exact absurd ⟨ha, hb⟩ (h j)

theorem land_self_iff_subset {a F : ℕ} :
    a &&& F = a ↔ ∀ j, a.testBit j = true → F.testBit j = true := by
  constructor
  · intro h j hj
    have := congrArg (fun n => n.testBit j) h
    simp only [Nat.testBit_land, hj, Bool.true_and] at this
    exact this
  · intro h
    apply Nat.eq_of_testBit_eq
    intro j
    simp only [Nat.testBit_land]
    cases ha : a.testBit j with
    | false => rfl
    | true => simp [h j ha]

theorem shift_land_eq_zero_iff {i grid : ℕ} :
    (1 <<< i) &&& grid = 0 ↔ grid.testBit i = false := by
  rw [one_shiftLeft_eq]
  constructor
  · intro h
    cases hg : grid.testBit i with
    | false => rfl
    | true =>
      exact absurd ⟨Nat.testBit_two_pow_self, hg⟩ (land_eq_zero_iff.mp h i)
  · intro hg
    rw [land_eq_zero_iff]
    intro j ⟨h2, hj⟩
    by_cases hij : i = j
    · rw [← hij] at hj; rw [hj] at hg; exact Bool.true_eq_false.mp hg
    · rw [Nat.testBit_two_pow_of_ne hij] at h2; exact Bool.false_eq_true.mp h2

theorem FULL_GRID_testBit (j : ℕ) : FULL_GRID.testBit j = true ↔ j < 48 ∧ j % 8 ≠ 7 := by
  by_cases h : j < 48
  · have hall : ∀ i < 48, (FULL_GRID.testBit i = decide (i % 8 ≠ 7)) := by decide
    rw [hall j h]
    simp [h]
  · have hlt : FULL_GRID < 2 ^ j := by
      calc FULL_GRID < 2 ^ 48 := by norm_num [FULL_GRID]
      _ ≤ 2 ^ j := Nat.pow_le_pow_right (by norm_num) (by omega)
    rw [Nat.testBit_eq_false_of_lt hlt]
    simp
    omega

/-! ### `List.range` / `find?` helpers -/

theorem find?_range_eq_some : ∀ {k y : ℕ} {p : ℕ → Bool},
    (List.range k).find? p = some y → p y = true ∧ y < k ∧ ∀ z < y, p z = false := by
  intro k
  induction k with
  | zero => intro y p h; simp [List.range_zero] at h
  | succ k ih =>
    intro y p h
    rw [List.range_succ, List.find?_append] at h
    cases h1 : (List.range k).find? p with
    | some y2 =>
      rw [h1] at h
      have h2 : y2 = y := by
        have : (some y2).or ((List.find? p [k])) = some y2 := by simp
        rw [this] at h
        exact Option.some.inj h
      subst h2
      obtain ⟨hp, hk, hmin⟩ := ih h1
      exact ⟨hp, by omega, hmin⟩
    | none =>
      rw [h1] at h
      have hno : (Option.or none (List.find? p [k])) = List.find? p [k] := by simp
      rw [hno] at h
      have hall := List.find?_eq_none.mp h1
      by_cases hp : p k
      · simp only [List.find?, hp] at h
        cases h
        refine ⟨hp, by omega, fun z hz => ?_⟩
        have := hall z (List.mem_range.mpr hz)
        simpa using this
      · simp only [List.find?, Bool.not_eq_true] at h
        rw [Bool.not_eq_true] at hp
        rw [hp] at h
        simp at h

theorem find?_range_eq_none {k : ℕ} {p : ℕ → Bool}
    (h : (List.range k).find? p = none) : ∀ z < k, p z = false := by
  intro z hz
  have := List.find?_eq_none.mp h z (List.mem_range.mpr hz)
  simpa using this

end Connect4

namespace Connect4

/-! ### Structure of `get_moves` -/

theorem mem_get_moves {p1 p2 : ℕ} {m : ℕ × ℕ} :
    m ∈ get_moves p1 p2 ↔
      ∃ x < 7, ∃ y,
        ((List.range 6).find? fun yy => (1 <<< (yy * 8 + x)) &&& (p1 ||| p2) == 0) = some y ∧
        m = (p2, p1 ||| (1 <<< (y * 8 + x))) := by
  simp only [get_moves, List.mem_filterMap, List.mem_range, Option.map_eq_some']
  constructor
  · rintro ⟨x, hx, y, hy, hm⟩
    exact ⟨x, hx, y, hy, hm.symm⟩
  · rintro ⟨x, hx, y, hy, hm⟩
    exact ⟨x, hx, y, hy, hm.symm⟩

theorem get_moves_shape {p1 p2 : ℕ} {m : ℕ × ℕ} (h : m ∈ get_moves p1 p2) :
    ∃ x, x < 7 ∧ ∃ y, y < 6 ∧ m = (p2, p1 ||| 2 ^ (y * 8 + x)) ∧
      (p1 ||| p2).testBit (y * 8 + x) = false ∧
      ∀ z < y, (p1 ||| p2).testBit (z * 8 + x) = true := by
  obtain ⟨x, hx, y, hy, hm⟩ := mem_get_moves.mp h
  obtain ⟨hp, hy6, hmin⟩ := find?_range_eq_some hy
  refine ⟨x, hx, y, hy6, ?_, ?_, ?_⟩
  · rw [hm, one_shiftLeft_eq]
  · rw [← shift_land_eq_zero_iff]
    exact of_decide_eq_true hp
  · intro z hz
    have := hmin z hz
    have h2 : ¬((1 <<< (z * 8 + x)) &&& (p1 ||| p2) = 0) := by
      intro hc
      rw [show ((1 <<< (z * 8 + x)) &&& (p1 ||| p2) == 0) = true from decide_eq_true hc] at this
      exact Bool.true_eq_false.mp this
    cases hb : (p1 ||| p2).testBit (z * 8 + x) with
    | true => rfl
    | false => exact absurd (shift_land_eq_zero_iff.mpr hb) h2

theorem playable_testBit {x y : ℕ} (hx : x < 7) (hy : y < 6) :
    FULL_GRID.testBit (y * 8 + x) = true := by
  rw [FULL_GRID_testBit]
  omega

/-- Applying any generated move preserves well-formedness, the new united
grid is the old one plus the played bit, and the empty-cell count drops by
exactly one. -/
theorem move_step {p1 p2 : ℕ} (h : wfState p1 p2) {m : ℕ × ℕ}
    (hm : m ∈ get_moves p1 p2) :
    wfState m.1 m.2 ∧ emptyCells (m.1 ||| m.2) + 1 = emptyCells (p1 ||| p2) := by
  obtain ⟨x, hx, y, hy, hmeq, hempty, -⟩ := get_moves_shape hm
  set i := y * 8 + x with hi
  have hfull : FULL_GRID.testBit i = true := playable_testBit hx hy
  have hd : ∀ j, ¬(p1.testBit j = true ∧ p2.testBit j = true) := land_eq_zero_iff.mp h.1
  have hsub : ∀ j, (p1 ||| p2).testBit j = true → FULL_GRID.testBit j = true :=
    land_self_iff_subset.mp h.2
  have hgrid : m.1 ||| m.2 = (p1 ||| p2) ||| 2 ^ i := by
    rw [hmeq]
    simp only
    rw [← Nat.lor_assoc, Nat.lor_comm p2 p1]
  have hp2i : p2.testBit i = false := by
    cases hb : p2.testBit i with
    | false => rfl
    | true =>
      rw [show (p1 ||| p2).testBit i = (p1.testBit i || p2.testBit i) from
        Nat.testBit_lor p1 p2 i, hb] at hempty
      simp at hempty
  constructor
  · constructor
    · rw [hmeq]
      simp only
      rw [land_eq_zero_iff]
      intro j ⟨hj2, hj1⟩
      rw [Nat.testBit_lor] at hj1
      rcases Bool.or_eq_true_iff.mp hj1 with h1 | h1
      · exact hd j ⟨h1, hj2⟩
      · by_cases hij : i = j
        · rw [← hij] at hj2
          rw [hj2] at hp2i
          exact Bool.true_eq_false.mp hp2i
        · rw [Nat.testBit_two_pow_of_ne hij] at h1
          exact Bool.false_eq_true.mp h1
    · rw [hgrid, land_self_iff_subset]
      intro j hj
      rw [Nat.testBit_lor] at hj
      rcases Bool.or_eq_true_iff.mp hj with h1 | h1
      · exact hsub j h1
      · by_cases hij : i = j
        · rw [← hij]; exact hfull
        · rw [Nat.testBit_two_pow_of_ne hij] at h1
          exact absurd h1 (by simp)
  · rw [hgrid]
    have hi48 : i < 48 := by omega
    have h12 : p1.testBit i = false ∧ p2.testBit i = false := by
      have h' := hempty
      rw [Nat.testBit_lor] at h'
      simpa using h'
    have hmem : i ∈ (Finset.range 48).filter
        fun j => FULL_GRID.testBit j ∧ ¬ (p1 ||| p2).testBit j := by
      simp [Finset.mem_filter, Finset.mem_range, hi48, hfull, h12.1, h12.2]
    have hset : ((Finset.range 48).filter
          fun j => FULL_GRID.testBit j ∧ ¬ ((p1 ||| p2) ||| 2 ^ i).testBit j)
        = ((Finset.range 48).filter
          fun j => FULL_GRID.testBit j ∧ ¬ (p1 ||| p2).testBit j).erase i := by
      ext j
      simp only [Finset.mem_erase, Finset.mem_filter, Finset.mem_range, Nat.testBit_lor,
        Bool.or_eq_true, not_or]
      constructor
      · rintro ⟨hj48, hjf, hjg, hj2⟩
        have hij : i ≠ j := by
          intro hc
          rw [hc] at hj2
          exact hj2 Nat.testBit_two_pow_self
        exact ⟨fun hc => hij hc.symm, hj48, hjf, hjg⟩
      · rintro ⟨hij, hj48, hjf, hjg⟩
        refine ⟨hj48, hjf, hjg, ?_⟩
        rw [Nat.testBit_two_pow_of_ne (fun hc => hij hc.symm)]
        simp
    rw [emptyCells, emptyCells, hset, Finset.card_erase_of_mem hmem]
    have hpos : 0 < ((Finset.range 48).filter
        fun j => FULL_GRID.testBit j ∧ ¬ (p1 ||| p2).testBit j).card :=
      Finset.card_pos.mpr ⟨i, hmem⟩
    omega

theorem get_moves_ne_nil {p1 p2 : ℕ} (h : wfState p1 p2)
    (hfull : p1 ||| p2 ≠ FULL_GRID) : get_moves p1 p2 ≠ [] := by
  have hsub : ∀ j, (p1 ||| p2).testBit j = true → FULL_GRID.testBit j = true :=
    land_self_iff_subset.mp h.2
  have hex : ∃ i, FULL_GRID.testBit i = true ∧ (p1 ||| p2).testBit i = false := by
    by_contra hc
    push_neg at hc
    apply hfull
    apply Nat.eq_of_testBit_eq
    intro j
    cases hg : (p1 ||| p2).testBit j with
    | true => exact (hsub j hg).symm
    | false =>
      cases hf : FULL_GRID.testBit j with
      | true =>
        have := hc j hf
        rw [hg] at this
        exact absurd rfl this
      | false => rfl
  obtain ⟨i, hif, hig⟩ := hex
  rw [FULL_GRID_testBit] at hif
  have hx : i % 8 < 7 := by omega
  have hy : i / 8 < 6 := by omega
  have hiy : (i / 8) * 8 + i % 8 = i := by omega
  have hcol : ∃ y, ((List.range 6).find?
      fun yy => (1 <<< (yy * 8 + i % 8)) &&& (p1 ||| p2) == 0) = some y := by
    cases hf : (List.range 6).find?
        fun yy => (1 <<< (yy * 8 + i % 8)) &&& (p1 ||| p2) == 0 with
    | some y => exact ⟨y, rfl⟩
    | none =>
      have := find?_range_eq_none hf (i / 8) hy
      rw [hiy] at this
      rw [show ((1 <<< i) &&& (p1 ||| p2) == 0) = true from
        decide_eq_true (shift_land_eq_zero_iff.mpr hig)] at this
      exact absurd this (by simp)
  obtain ⟨y, hfind⟩ := hcol
  have hmem : (p2, p1 ||| (1 <<< (y * 8 + i % 8))) ∈ get_moves p1 p2 :=
    mem_get_moves.mpr ⟨i % 8, hx, y, hfind, rfl⟩
  exact List.ne_nil_of_mem hmem

theorem get_moves_nil_of_full {p1 p2 : ℕ} (hfull : p1 ||| p2 = FULL_GRID) :
    get_moves p1 p2 = [] := by
  rw [get_moves, List.filterMap_eq_nil_iff]
  intro x hxmem
  rw [List.mem_range] at hxmem
  rw [Option.map_eq_none']
  cases hf : (List.range 6).find?
      fun yy => (1 <<< (yy * 8 + x)) &&& (p1 ||| p2) == 0 with
  | none => rfl
  | some y =>
    obtain ⟨hp, hy, -⟩ := find?_range_eq_some hf
    have hbit : (p1 ||| p2).testBit (y * 8 + x) = false :=
      shift_land_eq_zero_iff.mp (of_decide_eq_true hp)
    rw [hfull] at hbit
    rw [playable_testBit hxmem hy] at hbit
    exact absurd hbit (by simp)

theorem get_moves_eq_nil_iff {p1 p2 : ℕ} (h : wfState p1 p2) :
    get_moves p1 p2 = [] ↔ p1 ||| p2 = FULL_GRID := by
  constructor
  · intro hnil
    by_contra hc
    exact get_moves_ne_nil h hc hnil
  · exact get_moves_nil_of_full

end Connect4

namespace Connect4

/-! ### The map/filter presentation of `get_moves` (claim C5) -/

theorem filterMap_eq_map_filter {α β : Type} (f : α → Option β) (gd : α → β)
    (h : ∀ a b, f a = some b → gd a = b) :
    ∀ l : List α, l.filterMap f = (l.filter fun a => (f a).isSome).map gd := by
  intro l
  induction l with
  | nil => rfl
  | cons a l ih =>
    cases hf : f a with
    | none => simp [List.filterMap_cons, hf, ih, List.filter_cons]
    | some b => simp [List.filterMap_cons, hf, List.filter_cons, ih, h a b hf]

theorem get_moves_eq_map_filter (p1 p2 : ℕ) :
    get_moves p1 p2 =
      ((List.range 7).filter fun x => (colScan (p1 ||| p2) x).isSome).map
        fun x => (p2, p1 ||| (1 <<< (lowY (p1 ||| p2) x * 8 + x))) := by
  rw [get_moves]
  have key : ∀ x (b : ℕ × ℕ),
      ((colScan (p1 ||| p2) x).map fun y => (p2, p1 ||| (1 <<< (y * 8 + x)))) = some b →
      (p2, p1 ||| (1 <<< (lowY (p1 ||| p2) x * 8 + x))) = b := by
    intro x b hb
    rw [Option.map_eq_some'] at hb
    obtain ⟨y, hy, hb⟩ := hb
    rw [← hb, lowY, hy, Option.getD_some]
  have := filterMap_eq_map_filter
    (fun x => (colScan (p1 ||| p2) x).map fun y => (p2, p1 ||| (1 <<< (y * 8 + x))))
    (fun x => (p2, p1 ||| (1 <<< (lowY (p1 ||| p2) x * 8 + x)))) key (List.range 7)
  rw [show (fun x => ((List.range 6).find?
        fun y => (1 <<< (y * 8 + x)) &&& (p1 ||| p2) == 0).map
        fun y => (p2, p1 ||| (1 <<< (y * 8 + x))))
      = fun x => (colScan (p1 ||| p2) x).map fun y => (p2, p1 ||| (1 <<< (y * 8 + x)))
    from rfl]
  rw [this]
  congr 1
  apply List.filter_congr
  intro x _
  simp [Option.isSome_map]

theorem colScan_isSome_iff (grid x : ℕ) :
    (colScan grid x).isSome = true ↔ ∃ y < 6, grid.testBit (y * 8 + x) = false := by
  constructor
  · intro h
    rw [Option.isSome_iff_exists] at h
    obtain ⟨y, hy⟩ := h
    obtain ⟨hp, hy6, -⟩ := find?_range_eq_some hy
    exact ⟨y, hy6, shift_land_eq_zero_iff.mp (of_decide_eq_true hp)⟩
  · rintro ⟨y, hy6, hempty⟩
    cases hc : colScan grid x with
    | some z => simp
    | none =>
      have := find?_range_eq_none hc y hy6
      rw [show ((1 <<< (y * 8 + x)) &&& grid == 0) = true from
        decide_eq_true (shift_land_eq_zero_iff.mpr hempty)] at this
      exact absurd this (by simp)

theorem lowY_spec (grid x : ℕ) (h : (colScan grid x).isSome = true) :
    lowY grid x < 6 ∧ grid.testBit (lowY grid x * 8 + x) = false ∧
      ∀ z < lowY grid x, grid.testBit (z * 8 + x) = true := by
  rw [Option.isSome_iff_exists] at h
  obtain ⟨y, hy⟩ := h
  have hl : lowY grid x = y := by rw [lowY, hy, Option.getD_some]
  obtain ⟨hp, hy6, hmin⟩ := find?_range_eq_some hy
  rw [hl]
  refine ⟨hy6, shift_land_eq_zero_iff.mp (of_decide_eq_true hp), ?_⟩
  intro z hz
  have := hmin z hz
  cases hb : grid.testBit (z * 8 + x) with
  | true => rfl
  | false =>
    rw [show ((1 <<< (z * 8 + x)) &&& grid == 0) = true from
      decide_eq_true (shift_land_eq_zero_iff.mpr hb)] at this
    exact absurd this (by simp)

/-- Claim C5: `get_moves` produces exactly one entry per non-full column, in
ascending column order, the entry for column `x` being
`(p2, p1 | bit(y*8+x))` with `y` the lowest empty row of column `x`; hence at
most 7 entries, and (for well-formed states) no entry exactly when the board
is full. -/
theorem C5_move_generator (p1 p2 : ℕ) (h : wfState p1 p2) :
    get_moves p1 p2 =
      ((List.range 7).filter fun x => (colScan (p1 ||| p2) x).isSome).map
        (fun x => (p2, p1 ||| (1 <<< (lowY (p1 ||| p2) x * 8 + x)))) ∧
    (∀ x, ((colScan (p1 ||| p2) x).isSome = true ↔
      ∃ y < 6, (p1 ||| p2).testBit (y * 8 + x) = false)) ∧
    (∀ x, (colScan (p1 ||| p2) x).isSome = true →
      lowY (p1 ||| p2) x < 6 ∧
      (p1 ||| p2).testBit (lowY (p1 ||| p2) x * 8 + x) = false ∧
      ∀ z < lowY (p1 ||| p2) x, (p1 ||| p2).testBit (z * 8 + x) = true) ∧
    (get_moves p1 p2).length ≤ 7 ∧
    ((get_moves p1 p2 = []) ↔ p1 ||| p2 = FULL_GRID) := by
  refine ⟨get_moves_eq_map_filter p1 p2, fun x => colScan_isSome_iff _ x,
    fun x => lowY_spec _ x, ?_, get_moves_eq_nil_iff h⟩
  rw [get_moves_eq_map_filter p1 p2, List.length_map]
  calc ((List.range 7).filter fun x => (colScan (p1 ||| p2) x).isSome).length
      ≤ (List.range 7).length := List.length_filter_le _ _
  _ = 7 := List.length_range 7

/-- Witness for C5 at the empty board. -/
theorem C5_move_generator_witness : (get_moves 0 0).length ≤ 7 :=
  (C5_move_generator 0 0 ⟨rfl, rfl⟩).2.2.2.1

end Connect4

namespace Connect4

/-! ### Win detection (claim C6) -/

theorem is_winning_iff_or (m : ℕ) : is_winning m = true ↔
    m &&& (m >>> 1) &&& (m >>> 2) &&& (m >>> 3) ≠ 0 ∨
    m &&& (m >>> 8) &&& (m >>> 16) &&& (m >>> 24) ≠ 0 ∨
    m &&& (m >>> 9) &&& (m >>> 18) &&& (m >>> 27) ≠ 0 ∨
    m &&& (m >>> 7) &&& (m >>> 14) &&& (m >>> 21) ≠ 0 := by
  rw [is_winning]
  split_ifs with h1 h2 h3 h4 <;> simp_all

theorem chain_ne_zero_iff (m a b c : ℕ) :
    m &&& (m >>> a) &&& (m >>> b) &&& (m >>> c) ≠ 0 ↔
      ∃ i, m.testBit i = true ∧ m.testBit (a + i) = true ∧
        m.testBit (b + i) = true ∧ m.testBit (c + i) = true := by
  constructor
  · intro h
    have hex : ∃ i, (m &&& (m >>> a) &&& (m >>> b) &&& (m >>> c)).testBit i = true := by
      by_contra hc
      push_neg at hc
      apply h
      apply Nat.eq_of_testBit_eq
      intro i
      rw [Nat.zero_testBit]
      simpa using hc i
    obtain ⟨i, hi⟩ := hex
    simp only [Nat.testBit_land, Bool.and_eq_true, Nat.testBit_shiftRight] at hi
    exact ⟨i, hi.1.1.1, hi.1.1.2, hi.1.2, hi.2⟩
  · rintro ⟨i, h0, ha, hb, hc⟩ hz
    have hbit : (m &&& (m >>> a) &&& (m >>> b) &&& (m >>> c)).testBit i = true := by
      simp [Nat.testBit_land, Nat.testBit_shiftRight, h0, ha, hb, hc]
    rw [hz, Nat.zero_testBit] at hbit
    exact absurd hbit (by simp)

theorem is_winning_iff_hasLine {m : ℕ} (hsub : m &&& FULL_GRID = m) :
    is_winning m = true ↔ hasLine m := by
  have hs : ∀ j, m.testBit j = true → j < 48 ∧ j % 8 ≠ 7 := fun j hj =>
    (FULL_GRID_testBit j).mp (land_self_iff_subset.mp hsub j hj)
  rw [is_winning_iff_or]
  constructor
  · rintro (h | h | h | h)
    · obtain ⟨i, h0, h1, h2, h3⟩ := (chain_ne_zero_iff m 1 2 3).mp h
      obtain ⟨hi48, hi7⟩ := hs i h0
      obtain ⟨-, h17⟩ := hs _ h1
      obtain ⟨-, h27⟩ := hs _ h2
      obtain ⟨h348, h37⟩ := hs _ h3
      left
      refine ⟨i % 8, by omega, i / 8, by omega, ?_⟩
      intro k hk
      interval_cases k
      · rw [show i / 8 * 8 + (i % 8 + 0) = i by omega]; exact h0
      · rw [show i / 8 * 8 + (i % 8 + 1) = 1 + i by omega]; exact h1
      · rw [show i / 8 * 8 + (i % 8 + 2) = 2 + i by omega]; exact h2
      · rw [show i / 8 * 8 + (i % 8 + 3) = 3 + i by omega]; exact h3
    · obtain ⟨i, h0, h1, h2, h3⟩ := (chain_ne_zero_iff m 8 16 24).mp h
      obtain ⟨hi48, hi7⟩ := hs i h0
      obtain ⟨h348, h37⟩ := hs _ h3
      right; left
      refine ⟨i % 8, by omega, i / 8, by omega, ?_⟩
      intro k hk
      interval_cases k
      · rw [show (i / 8 + 0) * 8 + i % 8 = i by omega]; exact h0
      · rw [show (i / 8 + 1) * 8 + i % 8 = 8 + i by omega]; exact h1
      · rw [show (i / 8 + 2) * 8 + i % 8 = 16 + i by omega]; exact h2
      · rw [show (i / 8 + 3) * 8 + i % 8 = 24 + i by omega]; exact h3
    · obtain ⟨i, h0, h1, h2, h3⟩ := (chain_ne_zero_iff m 9 18 27).mp h
      obtain ⟨hi48, hi7⟩ := hs i h0
      obtain ⟨-, h17⟩ := hs _ h1
      obtain ⟨-, h27⟩ := hs _ h2
      obtain ⟨h348, h37⟩ := hs _ h3
      right; right; left
      refine ⟨i % 8, by omega, i / 8, by omega, ?_⟩
      intro k hk
      interval_cases k
      · rw [show (i / 8 + 0) * 8 + (i % 8 + 0) = i by omega]; exact h0
      · rw [show (i / 8 + 1) * 8 + (i % 8 + 1) = 9 + i by omega]; exact h1
      · rw [show (i / 8 + 2) * 8 + (i % 8 + 2) = 18 + i by omega]; exact h2
      · rw [show (i / 8 + 3) * 8 + (i % 8 + 3) = 27 + i by omega]; exact h3
    · obtain ⟨i, h0, h1, h2, h3⟩ := (chain_ne_zero_iff m 7 14 21).mp h
      obtain ⟨hi48, hi7⟩ := hs i h0
      obtain ⟨-, h17⟩ := hs _ h1
      obtain ⟨-, h27⟩ := hs _ h2
      obtain ⟨h348, h37⟩ := hs _ h3
      right; right; right
      refine ⟨i % 8, by omega, by omega, i / 8, by omega, ?_⟩
      intro k hk
      interval_cases k
      · rw [show (i / 8 + 0) * 8 + (i % 8 - 0) = i by omega]; exact h0
      · rw [show (i / 8 + 1) * 8 + (i % 8 - 1) = 7 + i by omega]; exact h1
      · rw [show (i / 8 + 2) * 8 + (i % 8 - 2) = 14 + i by omega]; exact h2
      · rw [show (i / 8 + 3) * 8 + (i % 8 - 3) = 21 + i by omega]; exact h3
  · rintro (⟨x, hx, y, hy, hk⟩ | ⟨x, hx, y, hy, hk⟩ | ⟨x, hx, y, hy, hk⟩ |
      ⟨x, hx3, hx6, y, hy, hk⟩)
    · left
      refine (chain_ne_zero_iff m 1 2 3).mpr ⟨y * 8 + x, ?_, ?_, ?_, ?_⟩
      · have h0 := hk 0 (by omega); rwa [show y * 8 + (x + 0) = y * 8 + x by omega] at h0
      · have h1 := hk 1 (by omega); rwa [show y * 8 + (x + 1) = 1 + (y * 8 + x) by omega] at h1
      · have h2 := hk 2 (by omega); rwa [show y * 8 + (x + 2) = 2 + (y * 8 + x) by omega] at h2
      · have h3 := hk 3 (by omega); rwa [show y * 8 + (x + 3) = 3 + (y * 8 + x) by omega] at h3
    · right; left
      refine (chain_ne_zero_iff m 8 16 24).mpr ⟨y * 8 + x, ?_, ?_, ?_, ?_⟩
      · have h0 := hk 0 (by omega); rwa [show (y + 0) * 8 + x = y * 8 + x by omega] at h0
      · have h1 := hk 1 (by omega); rwa [show (y + 1) * 8 + x = 8 + (y * 8 + x) by omega] at h1
      · have h2 := hk 2 (by omega); rwa [show (y + 2) * 8 + x = 16 + (y * 8 + x) by omega] at h2
      · have h3 := hk 3 (by omega); rwa [show (y + 3) * 8 + x = 24 + (y * 8 + x) by omega] at h3
    · right; right; left
      refine (chain_ne_zero_iff m 9 18 27).mpr ⟨y * 8 + x, ?_, ?_, ?_, ?_⟩
      · have h0 := hk 0 (by omega)
        rwa [show (y + 0) * 8 + (x + 0) = y * 8 + x by omega] at h0
      · have h1 := hk 1 (by omega)
        rwa [show (y + 1) * 8 + (x + 1) = 9 + (y * 8 + x) by omega] at h1
      · have h2 := hk 2 (by omega)
        rwa [show (y + 2) * 8 + (x + 2) = 18 + (y * 8 + x) by omega] at h2
      · have h3 := hk 3 (by omega)
        rwa [show (y + 3) * 8 + (x + 3) = 27 + (y * 8 + x) by omega] at h3
    · right; right; right
      refine (chain_ne_zero_iff m 7 14 21).mpr ⟨y * 8 + x, ?_, ?_, ?_, ?_⟩
      · have h0 := hk 0 (by omega)
        rwa [show (y + 0) * 8 + (x - 0) = y * 8 + x by omega] at h0
      · have h1 := hk 1 (by omega)
        rwa [show (y + 1) * 8 + (x - 1) = 7 + (y * 8 + x) by omega] at h1
      · have h2 := hk 2 (by omega)
        rwa [show (y + 2) * 8 + (x - 2) = 14 + (y * 8 + x) by omega] at h2
      · have h3 := hk 3 (by omega)
        rwa [show (y + 3) * 8 + (x - 3) = 21 + (y * 8 + x) by omega] at h3

end Connect4

namespace Connect4

/-- C6: `get_status` returns `WON`/`LOST`/`DRAW`/`PLAYING` in exactly that
priority order from `is_winning A`, `is_winning B` and the full-board test;
and for masks inside the playable grid, `is_winning` holds precisely for a
contiguous horizontal, vertical or diagonal four-in-a-row (the padding bit
prevents wrap across column boundaries). -/
theorem C6_status_and_win (A B m : ℕ) (hsub : m &&& FULL_GRID = m) :
    (get_status A B = STATUS.WON ↔ is_winning A = true) ∧
    (get_status A B = STATUS.LOST ↔ is_winning A = false ∧ is_winning B = true) ∧
    (get_status A B = STATUS.DRAW ↔
      is_winning A = false ∧ is_winning B = false ∧ FULL_GRID = A ||| B) ∧
    (get_status A B = STATUS.PLAYING ↔
      is_winning A = false ∧ is_winning B = false ∧ FULL_GRID ≠ A ||| B) ∧
    (is_winning m = true ↔ hasLine m) := by
  refine ⟨?_, ?_, ?_, ?_, is_winning_iff_hasLine hsub⟩ <;>
  · rw [get_status]
    split_ifs <;> simp_all

/-- Witness for C6 at the bottom-row horizontal line `0b1111`. -/
theorem C6_status_and_win_witness : is_winning 15 = true ↔ hasLine 15 :=
  (C6_status_and_win 0 0 15 rfl).2.2.2.2

/-! ### Backpropagation frame lemmas (claim C3) -/

theorem backprop_unfold (fuel node : ℕ) (g : Graph) (s : ℕ) :
    backpropagation (fuel + 1) node g s =
      (let nd := g.getD node d0
       let g2 := g.set node { nd with nb_visit := nd.nb_visit + 1, score := nd.score + s }
       match nd.parent with
       | some parent => backpropagation fuel parent g2 ([2, 1, 0].getD s 0)
       | none => g2) := rfl

theorem backprop_unfold_some (fuel node : ℕ) (g : Graph) (s p : ℕ)
    (h : (g.getD node d0).parent = some p) :
    backpropagation (fuel + 1) node g s =
      backpropagation fuel p (g.set node (bumpNode g node s)) ([2, 1, 0].getD s 0) := by
  have hb : backpropagation (fuel + 1) node g s =
      (match (g.getD node d0).parent with
       | some parent =>
         backpropagation fuel parent (g.set node (bumpNode g node s)) ([2, 1, 0].getD s 0)
       | none => g.set node (bumpNode g node s)) := rfl
  rw [hb, h]

theorem backprop_unfold_none (fuel node : ℕ) (g : Graph) (s : ℕ)
    (h : (g.getD node d0).parent = none) :
    backpropagation (fuel + 1) node g s = g.set node (bumpNode g node s) := by
  have hb : backpropagation (fuel + 1) node g s =
      (match (g.getD node d0).parent with
       | some parent =>
         backpropagation fuel parent (g.set node (bumpNode g node s)) ([2, 1, 0].getD s 0)
       | none => g.set node (bumpNode g node s)) := rfl
  rw [hb, h]

theorem backprop_length : ∀ (fuel node : ℕ) (g : Graph) (s : ℕ),
    (backpropagation fuel node g s).length = g.length := by
  intro fuel
  induction fuel with
  | zero => intro node g s; rfl
  | succ fuel ih =>
    intro node g s
    rw [backprop_unfold]
    cases hp : (g.getD node d0).parent with
    | some p => simp only [hp, ih, List.length_set]
    | none => simp only [hp, List.length_set]

theorem getD_set_preserve (g : Graph) (node m : ℕ) (v : Node)
    (hst : v.state = (g.getD node d0).state)
    (hch : v.children = (g.getD node d0).children)
    (hpa : v.parent = (g.getD node d0).parent)
    (hsa : v.status = (g.getD node d0).status) :
    ((g.set node v).getD m d0).state = (g.getD m d0).state ∧
    ((g.set node v).getD m d0).children = (g.getD m d0).children ∧
    ((g.set node v).getD m d0).parent = (g.getD m d0).parent ∧
    ((g.set node v).getD m d0).status = (g.getD m d0).status := by
  by_cases hnm : node = m
  · subst hnm
    by_cases hb : node < g.length
    · rw [getD_set_self g node _ hb]
      exact ⟨hst, hch, hpa, hsa⟩
    · rw [List.set_eq_of_length_le (by omega)]
      exact ⟨rfl, rfl, rfl, rfl⟩
  · rw [getD_set_ne g node _ m hnm]
    exact ⟨rfl, rfl, rfl, rfl⟩

theorem backprop_fields : ∀ (fuel node : ℕ) (g : Graph) (s m : ℕ),
    ((backpropagation fuel node g s).getD m d0).state = (g.getD m d0).state ∧
    ((backpropagation fuel node g s).getD m d0).children = (g.getD m d0).children ∧
    ((backpropagation fuel node g s).getD m d0).parent = (g.getD m d0).parent ∧
    ((backpropagation fuel node g s).getD m d0).status = (g.getD m d0).status := by
  intro fuel
  induction fuel with
  | zero => intro node g s m; exact ⟨rfl, rfl, rfl, rfl⟩
  | succ fuel ih =>
    intro node g s m
    have hkeep := getD_set_preserve g node m (bumpNode g node s) rfl rfl rfl rfl
    cases hp : (g.getD node d0).parent with
    | some p =>
      rw [backprop_unfold_some fuel node g s p hp]
      have h2 := ih p (g.set node (bumpNode g node s)) ([2, 1, 0].getD s 0) m
      exact ⟨h2.1.trans hkeep.1, h2.2.1.trans hkeep.2.1, h2.2.2.1.trans hkeep.2.2.1,
        h2.2.2.2.trans hkeep.2.2.2⟩
    | none =>
      rw [backprop_unfold_none fuel node g s hp]
      exact hkeep

end Connect4

namespace Connect4

theorem getD_set_bump_visit_le (g : Graph) (node s m : ℕ) :
    (g.getD m d0).nb_visit ≤ ((g.set node (bumpNode g node s)).getD m d0).nb_visit := by
  by_cases hnm : node = m
  · subst hnm
    by_cases hb : node < g.length
    · rw [getD_set_self g node _ hb]
      simp [bumpNode]
    · rw [List.set_eq_of_length_le (by omega)]
  · rw [getD_set_ne g node _ m hnm]

theorem backprop_visit_mono : ∀ (fuel node : ℕ) (g : Graph) (s m : ℕ),
    (g.getD m d0).nb_visit ≤ ((backpropagation fuel node g s).getD m d0).nb_visit := by
  intro fuel
  induction fuel with
  | zero => intro node g s m; exact le_refl _
  | succ fuel ih =>
    intro node g s m
    cases hp : (g.getD node d0).parent with
    | some p =>
      rw [backprop_unfold_some fuel node g s p hp]
      exact le_trans (getD_set_bump_visit_le g node s m)
        (ih p (g.set node (bumpNode g node s)) ([2, 1, 0].getD s 0) m)
    | none =>
      rw [backprop_unfold_none fuel node g s hp]
      exact getD_set_bump_visit_le g node s m

theorem backprop_start_visit (fuel node : ℕ) (g : Graph) (s : ℕ)
    (hfuel : 1 ≤ fuel) (hb : node < g.length) :
    (g.getD node d0).nb_visit + 1 ≤
      ((backpropagation fuel node g s).getD node d0).nb_visit := by
  obtain ⟨f, rfl⟩ : ∃ f, fuel = f + 1 := ⟨fuel - 1, by omega⟩
  cases hp : (g.getD node d0).parent with
  | some p =>
    rw [backprop_unfold_some f node g s p hp]
    refine le_trans ?_ (backprop_visit_mono f p (g.set node (bumpNode g node s)) _ node)
    rw [getD_set_self g node _ hb]
    simp [bumpNode]
  | none =>
    rw [backprop_unfold_none f node g s hp]
    rw [getD_set_self g node _ hb]
    simp [bumpNode]

theorem backprop_untouched_gt : ∀ (fuel node : ℕ) (g : Graph) (s m : ℕ),
    (∀ k, k < g.length → ∀ p, (g.getD k d0).parent = some p → p < k) →
    node < m → (backpropagation fuel node g s).getD m d0 = g.getD m d0 := by
  intro fuel
  induction fuel with
  | zero => intro node g s m _ _; rfl
  | succ fuel ih =>
    intro node g s m hWF hnm
    cases hp : (g.getD node d0).parent with
    | some p =>
      rw [backprop_unfold_some fuel node g s p hp]
      have hnode : node < g.length := by
        by_contra hc
        rw [List.getD_eq_default _ _ (by omega)] at hp
        simp [d0] at hp
      have hplt : p < node := hWF node hnode p hp
      have hWF2 : ∀ k, k < (g.set node (bumpNode g node s)).length →
          ∀ q, ((g.set node (bumpNode g node s)).getD k d0).parent = some q → q < k := by
        intro k hk q hq
        rw [List.length_set] at hk
        rw [(getD_set_preserve g node k (bumpNode g node s) rfl rfl rfl rfl).2.2.1] at hq
        exact hWF k hk q hq
      rw [ih p (g.set node (bumpNode g node s)) _ m hWF2 (by omega)]
      exact getD_set_ne g node _ m (by omega)
    | none =>
      rw [backprop_unfold_none fuel node g s hp]
      exact getD_set_ne g node _ m (by omega)

theorem backprop_exact (fuel node : ℕ) (g : Graph) (s : ℕ)
    (hWF : ∀ k, k < g.length → ∀ p, (g.getD k d0).parent = some p → p < k)
    (hb : node < g.length) :
    ((backpropagation (fuel + 1) node g s).getD node d0).nb_visit
        = (g.getD node d0).nb_visit + 1 ∧
    ((backpropagation (fuel + 1) node g s).getD node d0).score
        = (g.getD node d0).score + s := by
  cases hp : (g.getD node d0).parent with
  | some p =>
    rw [backprop_unfold_some fuel node g s p hp]
    have hplt : p < node := hWF node hb p hp
    have hWF2 : ∀ k, k < (g.set node (bumpNode g node s)).length →
        ∀ q, ((g.set node (bumpNode g node s)).getD k d0).parent = some q → q < k := by
      intro k hk q hq
      rw [List.length_set] at hk
      rw [(getD_set_preserve g node k (bumpNode g node s) rfl rfl rfl rfl).2.2.1] at hq
      exact hWF k hk q hq
    rw [backprop_untouched_gt fuel p (g.set node (bumpNode g node s)) _ node hWF2 hplt]
    rw [getD_set_self g node _ hb]
    exact ⟨rfl, rfl⟩
  | none =>
    rw [backprop_unfold_none fuel node g s hp]
    rw [getD_set_self g node _ hb]
    exact ⟨rfl, rfl⟩

theorem parentChain_succ (fuel n : ℕ) (g : Graph) :
    parentChain (fuel + 1) n g =
      n :: (match (g.getD n d0).parent with
        | some p => parentChain fuel p g
        | none => []) := rfl

theorem parentChain_congr : ∀ (fuel n : ℕ) (g g2 : Graph),
    (∀ m, (g.getD m d0).parent = (g2.getD m d0).parent) →
    parentChain fuel n g = parentChain fuel n g2 := by
  intro fuel
  induction fuel with
  | zero => intro n g g2 _; rfl
  | succ fuel ih =>
    intro n g g2 h
    rw [parentChain_succ, parentChain_succ, h n]
    cases hp : (g2.getD n d0).parent with
    | some p => simp only [ih p g g2 h]
    | none => rfl

theorem backprop_offchain : ∀ (fuel node : ℕ) (g : Graph) (s m : ℕ),
    m ∉ parentChain fuel node g →
    (backpropagation fuel node g s).getD m d0 = g.getD m d0 := by
  intro fuel
  induction fuel with
  | zero => intro node g s m _; rfl
  | succ fuel ih =>
    intro node g s m hm
    rw [parentChain_succ] at hm
    have hne : node ≠ m := fun hc => hm (hc ▸ List.mem_cons_self _ _)
    cases hp : (g.getD node d0).parent with
    | some p =>
      rw [backprop_unfold_some fuel node g s p hp]
      have hm2 : m ∉ parentChain fuel p (g.set node (bumpNode g node s)) := by
        intro hc
        have hcongr := parentChain_congr fuel p g (g.set node (bumpNode g node s))
          fun k => ((getD_set_preserve g node k (bumpNode g node s) rfl rfl rfl rfl).2.2.1).symm
        rw [← hcongr] at hc
        apply hm
        rw [hp]
        exact List.mem_cons_of_mem _ hc
      rw [ih p (g.set node (bumpNode g node s)) _ m hm2]
      exact getD_set_ne g node _ m hne
    | none =>
      rw [backprop_unfold_none fuel node g s hp]
      exact getD_set_ne g node _ m hne

/-- C3: one backpropagation step adds exactly one visit and `s` score to the
working node, recurses on its parent with the flipped code `[2,1,0][s]`, and
stops at the first node with no parent; the arena length and all fields other
than `nb_visit`/`score` are untouched, and nodes off the walked parent chain
are untouched entirely. -/
theorem C3_backpropagation (fuel node : ℕ) (g : Graph) (s : ℕ)
    (hWF : ∀ k, k < g.length → ∀ p, (g.getD k d0).parent = some p → p < k)
    (hb : node < g.length) :
    ((g.getD node d0).parent = none →
      backpropagation (fuel + 1) node g s = g.set node (bumpNode g node s)) ∧
    (∀ p, (g.getD node d0).parent = some p →
      backpropagation (fuel + 1) node g s =
        backpropagation fuel p (g.set node (bumpNode g node s)) ([2, 1, 0].getD s 0)) ∧
    ((backpropagation (fuel + 1) node g s).getD node d0).nb_visit
        = (g.getD node d0).nb_visit + 1 ∧
    ((backpropagation (fuel + 1) node g s).getD node d0).score
        = (g.getD node d0).score + s ∧
    (backpropagation (fuel + 1) node g s).length = g.length ∧
    (∀ m, ((backpropagation (fuel + 1) node g s).getD m d0).state = (g.getD m d0).state ∧
      ((backpropagation (fuel + 1) node g s).getD m d0).children = (g.getD m d0).children ∧
      ((backpropagation (fuel + 1) node g s).getD m d0).parent = (g.getD m d0).parent ∧
      ((backpropagation (fuel + 1) node g s).getD m d0).status = (g.getD m d0).status) ∧
    (∀ m, m ∉ parentChain (fuel + 1) node g →
      (backpropagation (fuel + 1) node g s).getD m d0 = g.getD m d0) := by
  refine ⟨backprop_unfold_none fuel node g s, fun p hp => backprop_unfold_some fuel node g s p hp,
    (backprop_exact fuel node g s hWF hb).1, (backprop_exact fuel node g s hWF hb).2,
    backprop_length _ node g s, fun m => backprop_fields _ node g s m,
    fun m => backprop_offchain _ node g s m⟩

/-- Witness for C3 on the two-node chain, backpropagating outcome `2` from
the child. -/
theorem C3_backpropagation_witness :
    ((backpropagation 2 1 gChain 2).getD 1 d0).nb_visit = (gChain.getD 1 d0).nb_visit + 1 :=
  (C3_backpropagation 1 1 gChain 2
    (by
      intro k hk p hp
      have hk2 : k < 2 := by simpa [gChain] using hk
      interval_cases k
      · simp [gChain, d0] at hp
      · simp [gChain, d0] at hp
        omega)
    (by simp [gChain])).2.2.1

end Connect4

namespace Connect4

/-! ### Reachability invariant (claim C8) -/

theorem status_playing_not_winning {A B : ℕ} (h : get_status A B = STATUS.PLAYING) :
    is_winning A = false ∧ is_winning B = false := by
  rw [get_status] at h
  split_ifs at h <;> simp_all

/-- C8: from a start state where neither mask has four-in-a-row, every state
reached by `get_moves` transitions taken out of `PLAYING` states — the only
transitions selection/expansion and the simulation recursion perform — never
has both masks winning simultaneously. -/
theorem C8_mutual_exclusion (s0 s : ℕ × ℕ) (h1 : is_winning s0.1 = false)
    (h2 : is_winning s0.2 = false) (hr : Reach s0 s) :
    ¬(is_winning s.1 = true ∧ is_winning s.2 = true) := by
  induction hr with
  | refl =>
    rintro ⟨ha, -⟩
    rw [h1] at ha
    exact absurd ha (by simp)
  | step hr2 hstat hmove ih =>
    obtain ⟨x, hx, y, hy, hmeq, -, -⟩ := get_moves_shape hmove
    have hnw := status_playing_not_winning hstat
    rintro ⟨ha, -⟩
    rw [hmeq] at ha
    simp only at ha
    rw [hnw.2] at ha
    exact absurd ha (by simp)

/-- Witness for C8 at the empty start state itself. -/
theorem C8_mutual_exclusion_witness :
    ¬(is_winning ((0, 0) : ℕ × ℕ).1 = true ∧ is_winning ((0, 0) : ℕ × ℕ).2 = true) :=
  C8_mutual_exclusion (0, 0) (0, 0) rfl rfl Reach.refl

/-! ### Simulation (claim C2) -/

theorem simulation_succ (fuel : ℕ) (rng : ℕ → ℕ) (p1 p2 : ℕ) :
    simulation (fuel + 1) rng p1 p2 =
      (if is_winning p2 then some 2
       else if p1 ||| p2 = FULL_GRID then some 1
       else
        (simulation fuel (fun n => rng (n + 1))
          ((get_moves p1 p2).getD (rng 0 % (get_moves p1 p2).length) (0, 0)).1
          ((get_moves p1 p2).getD (rng 0 % (get_moves p1 p2).length) (0, 0)).2).map
            fun r => [2, 1, 0].getD r 0) := rfl

theorem code_flip_le_two (n : ℕ) : [2, 1, 0].getD n 0 ≤ 2 := by
  rcases n with _ | _ | _ | n <;> simp [List.getD]

theorem simulation_le_two : ∀ (fuel : ℕ) (rng : ℕ → ℕ) (p1 p2 r : ℕ),
    simulation fuel rng p1 p2 = some r → r ≤ 2 := by
  intro fuel
  induction fuel with
  | zero => intro rng p1 p2 r h; simp [simulation] at h
  | succ fuel ih =>
    intro rng p1 p2 r h
    rw [simulation_succ] at h
    split_ifs at h with h1 h2
    · cases h; omega
    · cases h; omega
    · rw [Option.map_eq_some'] at h
      obtain ⟨r2, -, hmap⟩ := h
      rw [← hmap]
      exact code_flip_le_two r2

theorem emptyCells_le (grid : ℕ) : emptyCells grid ≤ 42 := by
  rw [emptyCells]
  have hsub : ((Finset.range 48).filter fun i => FULL_GRID.testBit i ∧ ¬ grid.testBit i)
      ⊆ (Finset.range 48).filter fun i => FULL_GRID.testBit i := by
    intro i hi
    rw [Finset.mem_filter] at hi ⊢
    exact ⟨hi.1, hi.2.1⟩
  have h42 : ((Finset.range 48).filter fun i => FULL_GRID.testBit i).card = 42 := by decide
  calc ((Finset.range 48).filter fun i => FULL_GRID.testBit i ∧ ¬ grid.testBit i).card
      ≤ ((Finset.range 48).filter fun i => FULL_GRID.testBit i).card :=
        Finset.card_le_card hsub
  _ = 42 := h42

theorem simulation_isSome : ∀ (fuel p1 p2 : ℕ) (rng : ℕ → ℕ),
    wfState p1 p2 → emptyCells (p1 ||| p2) < fuel →
    (simulation fuel rng p1 p2).isSome = true := by
  intro fuel
  induction fuel with
  | zero => intro p1 p2 rng _ h; omega
  | succ fuel ih =>
    intro p1 p2 rng hwf hlt
    rw [simulation_succ]
    by_cases hw : is_winning p2 = true
    · simp [hw]
    · rw [Bool.not_eq_true] at hw
      rw [if_neg (by simp [hw])]
      by_cases hf : p1 ||| p2 = FULL_GRID
      · simp [hf]
      · rw [if_neg hf]
        have hne : get_moves p1 p2 ≠ [] := get_moves_ne_nil hwf hf
        have hlen : 0 < (get_moves p1 p2).length := List.length_pos.mpr hne
        have hidx : rng 0 % (get_moves p1 p2).length < (get_moves p1 p2).length :=
          Nat.mod_lt _ hlen
        have hmem : (get_moves p1 p2).getD (rng 0 % (get_moves p1 p2).length) (0, 0)
            ∈ get_moves p1 p2 := by
          rw [List.getD_eq_getElem _ _ hidx]
          exact List.getElem_mem _
        obtain ⟨hwf2, hcount⟩ := move_step hwf hmem
        rw [show ∀ (x : Option ℕ) (f : ℕ → ℕ), (x.map f).isSome = x.isSome from
          fun x f => by cases x <;> rfl]
        exact ih _ _ _ hwf2 (by omega)

/-- C2: from any well-formed state, `simulation` terminates within fuel equal
to the number of empty cells plus one (so recursion depth is bounded by the
empty cells, at most 42), returns `2` when the player who just moved has
four-in-a-row, else `1` on a full board, and otherwise recurses after one
randomly drawn legal move and flips the returned code through `[2,1,0]`
(swapping the win/loss codes `2` and `0` each ply, fixing the draw code `1`);
no tree nodes are involved: the rollout acts only on the two masks. -/
theorem C2_simulation (p1 p2 : ℕ) (rng : ℕ → ℕ) (h : wfState p1 p2) :
    emptyCells (p1 ||| p2) ≤ 42 ∧
    ∃ r, simulation (emptyCells (p1 ||| p2) + 1) rng p1 p2 = some r ∧ r ≤ 2 ∧
      (is_winning p2 = true → r = 2) ∧
      (is_winning p2 = false → p1 ||| p2 = FULL_GRID → r = 1) ∧
      (is_winning p2 = false → p1 ||| p2 ≠ FULL_GRID →
        ∃ r2, simulation (emptyCells (p1 ||| p2)) (fun n => rng (n + 1))
            ((get_moves p1 p2).getD (rng 0 % (get_moves p1 p2).length) (0, 0)).1
            ((get_moves p1 p2).getD (rng 0 % (get_moves p1 p2).length) (0, 0)).2
              = some r2 ∧
          r2 ≤ 2 ∧ r = [2, 1, 0].getD r2 0) := by
  refine ⟨emptyCells_le _, ?_⟩
  have hs : (simulation (emptyCells (p1 ||| p2) + 1) rng p1 p2).isSome = true :=
    simulation_isSome _ p1 p2 rng h (by omega)
  obtain ⟨r, hr⟩ := Option.isSome_iff_exists.mp hs
  refine ⟨r, hr, simulation_le_two _ _ _ _ _ hr, ?_, ?_, ?_⟩
  · intro hw
    rw [simulation_succ, if_pos hw] at hr
    exact (Option.some.inj hr).symm
  · intro hw hf
    rw [simulation_succ, if_neg (by simp [hw]), if_pos hf] at hr
    exact (Option.some.inj hr).symm
  · intro hw hf
    rw [simulation_succ, if_neg (by simp [hw]), if_neg hf] at hr
    rw [Option.map_eq_some'] at hr
    obtain ⟨r2, hr2, hmap⟩ := hr
    exact ⟨r2, hr2, simulation_le_two _ _ _ _ _ hr2, hmap.symm⟩

/-- Witness for C2 at the empty board with the always-first-move draw
stream. -/
theorem C2_simulation_witness : emptyCells ((0 : ℕ) ||| 0) ≤ 42 :=
  (C2_simulation 0 0 (fun _ => 0) ⟨rfl, rfl⟩).1

end Connect4

namespace Connect4

/-! ### Selection unfolding and the first-argmax UCT descent (claim C1) -/

theorem selection_unfold (fuel node : ℕ) (g : Graph) :
    selection (fuel + 1) node g =
      (if (g.getD node d0).status ≠ STATUS.PLAYING then (node, g)
       else if (get_moves (g.getD node d0).state.1 (g.getD node d0).state.2).length = 0 then
         (node, g)
       else if (get_moves (g.getD node d0).state.1 (g.getD node d0).state.2).length
           = (g.getD node d0).children.length then
         match bestChildAux g node (g.getD node d0).children none none with
         | some c => selection fuel c g
         | none => (node, g)
       else (g.length, expandGraph g node)) := rfl

theorem selection_terminal (fuel node : ℕ) (g : Graph)
    (h : (g.getD node d0).status ≠ STATUS.PLAYING) :
    selection (fuel + 1) node g = (node, g) := by
  rw [selection_unfold, if_pos h]

theorem selection_nomoves (fuel node : ℕ) (g : Graph)
    (hst : (g.getD node d0).status = STATUS.PLAYING)
    (h : (get_moves (g.getD node d0).state.1 (g.getD node d0).state.2).length = 0) :
    selection (fuel + 1) node g = (node, g) := by
  rw [selection_unfold, if_neg (not_not_intro hst), if_pos h]

theorem selection_descend (fuel node c : ℕ) (g : Graph)
    (hst : (g.getD node d0).status = STATUS.PLAYING)
    (hne : (get_moves (g.getD node d0).state.1 (g.getD node d0).state.2).length ≠ 0)
    (heq : (get_moves (g.getD node d0).state.1 (g.getD node d0).state.2).length
      = (g.getD node d0).children.length)
    (hbc : bestChildAux g node (g.getD node d0).children none none = some c) :
    selection (fuel + 1) node g = selection fuel c g := by
  rw [selection_unfold, if_neg (not_not_intro hst), if_neg hne, if_pos heq, hbc]

theorem selection_expand (fuel node : ℕ) (g : Graph)
    (hst : (g.getD node d0).status = STATUS.PLAYING)
    (hne : (get_moves (g.getD node d0).state.1 (g.getD node d0).state.2).length ≠ 0)
    (hneq : (get_moves (g.getD node d0).state.1 (g.getD node d0).state.2).length
      ≠ (g.getD node d0).children.length) :
    selection (fuel + 1) node g = (g.length, expandGraph g node) := by
  rw [selection_unfold, if_neg (not_not_intro hst), if_neg hne, if_neg hneq]

theorem bestChildAux_some_isSome : ∀ (l : List ℕ) (g : Graph) (n b : ℕ) (s : ℝ),
    ∃ c, bestChildAux g n l (some b) (some s) = some c := by
  intro l
  induction l with
  | nil => intro g n b s; exact ⟨b, rfl⟩
  | cons a rest ih =>
    intro g n b s
    by_cases hcmp : uct g n a > s
    · have heq : bestChildAux g n (a :: rest) (some b) (some s) =
          bestChildAux g n rest (some a) (some (uct g n a)) := by
        show (if uct g n a > s then bestChildAux g n rest (some a) (some (uct g n a))
          else bestChildAux g n rest (some b) (some s)) =
          bestChildAux g n rest (some a) (some (uct g n a))
        rw [if_pos hcmp]
      rw [heq]
      exact ih g n a (uct g n a)
    · have heq : bestChildAux g n (a :: rest) (some b) (some s) =
          bestChildAux g n rest (some b) (some s) := by
        show (if uct g n a > s then bestChildAux g n rest (some a) (some (uct g n a))
          else bestChildAux g n rest (some b) (some s)) =
          bestChildAux g n rest (some b) (some s)
        rw [if_neg hcmp]
      rw [heq]
      exact ih g n b s

theorem bestChildAux_argmax : ∀ (l pre : List ℕ) (g : Graph) (n b c : ℕ),
    firstArgmax (uct g n) pre b →
    bestChildAux g n l (some b) (some (uct g n b)) = some c →
    firstArgmax (uct g n) (pre ++ l) c := by
  intro l
  induction l with
  | nil =>
    intro pre g n b c hfa hc
    have hbc : b = c := by simpa [bestChildAux] using hc
    subst hbc
    simpa using hfa
  | cons a rest ih =>
    intro pre g n b c hfa hc
    by_cases hcmp : uct g n a > uct g n b
    · have heq : bestChildAux g n (a :: rest) (some b) (some (uct g n b)) =
          bestChildAux g n rest (some a) (some (uct g n a)) := by
        show (if uct g n a > uct g n b then bestChildAux g n rest (some a) (some (uct g n a))
          else bestChildAux g n rest (some b) (some (uct g n b))) =
          bestChildAux g n rest (some a) (some (uct g n a))
        rw [if_pos hcmp]
      rw [heq] at hc
      obtain ⟨p0, q0, hsplit, hlt, hle⟩ := hfa
      have hfa2 : firstArgmax (uct g n) (pre ++ [a]) a := by
        refine ⟨pre, [], by simp, ?_, ?_⟩
        · intro j hj
          exact lt_of_le_of_lt (hle j hj) hcmp
        · intro j hj
          rcases List.mem_append.mp hj with hj | hj
          · exact le_of_lt (lt_of_le_of_lt (hle j hj) hcmp)
          · rw [List.mem_singleton.mp hj]
      have hres := ih (pre ++ [a]) g n a c hfa2 hc
      rwa [List.append_assoc, List.singleton_append] at hres
    · have heq : bestChildAux g n (a :: rest) (some b) (some (uct g n b)) =
          bestChildAux g n rest (some b) (some (uct g n b)) := by
        show (if uct g n a > uct g n b then bestChildAux g n rest (some a) (some (uct g n a))
          else bestChildAux g n rest (some b) (some (uct g n b))) =
          bestChildAux g n rest (some b) (some (uct g n b))
        rw [if_neg hcmp]
      rw [heq] at hc
      obtain ⟨p0, q0, hsplit, hlt, hle⟩ := hfa
      have hfa2 : firstArgmax (uct g n) (pre ++ [a]) b := by
        refine ⟨p0, q0 ++ [a], by rw [hsplit]; simp, hlt, ?_⟩
        intro j hj
        rcases List.mem_append.mp hj with hj | hj
        · exact hle j hj
        · rw [List.mem_singleton.mp hj]
          exact not_lt.mp hcmp
      have hres := ih (pre ++ [a]) g n b c hfa2 hc
      rwa [List.append_assoc, List.singleton_append] at hres

theorem bestChild_spec (g : Graph) (n : ℕ) (l : List ℕ) (hne : l ≠ []) :
    ∃ c, bestChildAux g n l none none = some c ∧ firstArgmax (uct g n) l c := by
  obtain ⟨a, rest, rfl⟩ := List.exists_cons_of_ne_nil hne
  have hstep : bestChildAux g n (a :: rest) none none =
      bestChildAux g n rest (some a) (some (uct g n a)) := rfl
  obtain ⟨c, hc⟩ := bestChildAux_some_isSome rest g n a (uct g n a)
  have hfa : firstArgmax (uct g n) [a] a :=
    ⟨[], [], rfl, by simp, by intro j hj; rw [List.mem_singleton.mp hj]⟩
  have hres := bestChildAux_argmax rest [a] g n a c hfa hc
  rw [List.singleton_append] at hres
  exact ⟨c, hstep.trans hc, hres⟩

end Connect4

namespace Connect4

/-- C1: one selection/expansion step from a node: at a `PLAYING` node with
legal moves and child count equal to legal-move count, selection descends
into the first child attaining the strict maximum of
`score/visits + 2·sqrt(log2(parent visits)/child visits)` (ties resolve to
the first child, replacement only on strict `>`); at a `PLAYING` node that
is not fully expanded, exactly one new child is appended at the arena's end
holding `moves[children.len()]`, a parent link, zero score, zero visits and
an eagerly computed status, and is returned as the working node; at a
terminal node or one with no legal moves, the node itself is returned with
the arena unchanged. -/
theorem C1_selection_expansion (fuel node : ℕ) (g : Graph) (hb : node < g.length) :
    ((g.getD node d0).status ≠ STATUS.PLAYING → selection (fuel + 1) node g = (node, g)) ∧
    ((g.getD node d0).status = STATUS.PLAYING →
      get_moves (g.getD node d0).state.1 (g.getD node d0).state.2 = [] →
      selection (fuel + 1) node g = (node, g)) ∧
    ((g.getD node d0).status = STATUS.PLAYING →
      get_moves (g.getD node d0).state.1 (g.getD node d0).state.2 ≠ [] →
      (get_moves (g.getD node d0).state.1 (g.getD node d0).state.2).length
          = (g.getD node d0).children.length →
      ∃ c, bestChildAux g node (g.getD node d0).children none none = some c ∧
        firstArgmax (uct g node) (g.getD node d0).children c ∧
        selection (fuel + 1) node g = selection fuel c g) ∧
    ((g.getD node d0).status = STATUS.PLAYING →
      get_moves (g.getD node d0).state.1 (g.getD node d0).state.2 ≠ [] →
      (get_moves (g.getD node d0).state.1 (g.getD node d0).state.2).length
          ≠ (g.getD node d0).children.length →
      selection (fuel + 1) node g = (g.length, expandGraph g node) ∧
      (expandGraph g node).length = g.length + 1 ∧
      (expandGraph g node).getD g.length d0 = expandChild g node ∧
      expandChild g node =
        { state := (get_moves (g.getD node d0).state.1 (g.getD node d0).state.2).getD
            (g.getD node d0).children.length (0, 0),
          children := [], parent := some node, score := 0, nb_visit := 0,
          status := get_status
            ((get_moves (g.getD node d0).state.1 (g.getD node d0).state.2).getD
              (g.getD node d0).children.length (0, 0)).1
            ((get_moves (g.getD node d0).state.1 (g.getD node d0).state.2).getD
              (g.getD node d0).children.length (0, 0)).2 } ∧
      ((expandGraph g node).getD node d0).children
        = (g.getD node d0).children ++ [g.length] ∧
      (∀ m, m < g.length → m ≠ node → (expandGraph g node).getD m d0 = g.getD m d0)) := by
  refine ⟨selection_terminal fuel node g, ?_, ?_, ?_⟩
  · intro hst hnil
    exact selection_nomoves fuel node g hst (by rw [hnil]; rfl)
  · intro hst hne heq
    have hchne : (g.getD node d0).children ≠ [] := by
      intro hc
      rw [hc] at heq
      simp at heq
      exact hne (by simpa using heq)
    obtain ⟨c, hc, hfa⟩ := bestChild_spec g node (g.getD node d0).children hchne
    exact ⟨c, hc, hfa,
      selection_descend fuel node c g hst (by simpa using hne) heq hc⟩
  · intro hst hne hneq
    refine ⟨selection_expand fuel node g hst (by simpa using hne) hneq, ?_, ?_, rfl, ?_, ?_⟩
    · rw [expandGraph, List.length_set, List.length_append]
      rfl
    · rw [expandGraph, getD_set_ne _ _ _ _ (by omega),
        List.getD_append_right _ _ _ _ (le_refl _)]
      simp
    · rw [expandGraph, getD_set_self _ _ _ (by simp; omega)]
    · intro m hm hmne
      rw [expandGraph, getD_set_ne _ _ _ _ (fun hc => hmne hc.symm),
        List.getD_append _ _ _ _ hm]

/-- Witness for C1: the first iteration on the fresh one-node arena expands
the root's first child. -/
theorem C1_selection_expansion_witness :
    selection 1 0 init_graph = (init_graph.length, expandGraph init_graph 0) :=
  ((C1_selection_expansion 0 0 init_graph (by decide)).2.2.2 (by decide) (by decide)
    (by decide)).1

end Connect4

namespace Connect4

/-! ### Best-move extraction (claim C4) -/

theorem bestMoveAux_some_isSome : ∀ (l : List ℕ) (g : Graph) (bs : ℝ) (st : ℕ × ℕ) (bx : ℕ),
    ∃ out, bestMoveAux g l (some (bs, st, bx)) = some out := by
  intro l
  induction l with
  | nil => intro g bs st bx; exact ⟨(bs, st, bx), rfl⟩
  | cons a rest ih =>
    intro g bs st bx
    by_cases hcmp : childValue g a > bs
    · have heq : bestMoveAux g (a :: rest) (some (bs, st, bx)) =
          bestMoveAux g rest (some (childValue g a, (g.getD a d0).state, a)) := by
        show (if childValue g a > bs then
            bestMoveAux g rest (some (childValue g a, (g.getD a d0).state, a))
          else bestMoveAux g rest (some (bs, st, bx))) =
          bestMoveAux g rest (some (childValue g a, (g.getD a d0).state, a))
        rw [if_pos hcmp]
      rw [heq]
      exact ih g _ _ _
    · have heq : bestMoveAux g (a :: rest) (some (bs, st, bx)) =
          bestMoveAux g rest (some (bs, st, bx)) := by
        show (if childValue g a > bs then
            bestMoveAux g rest (some (childValue g a, (g.getD a d0).state, a))
          else bestMoveAux g rest (some (bs, st, bx))) =
          bestMoveAux g rest (some (bs, st, bx))
        rw [if_neg hcmp]
      rw [heq]
      exact ih g bs st bx

theorem bestMoveAux_argmax : ∀ (l pre : List ℕ) (g : Graph) (b : ℕ)
    (out : ℝ × (ℕ × ℕ) × ℕ),
    firstArgmax (childValue g) pre b →
    bestMoveAux g l (some (childValue g b, (g.getD b d0).state, b)) = some out →
    ∃ c, out = (childValue g c, (g.getD c d0).state, c) ∧
      firstArgmax (childValue g) (pre ++ l) c := by
  intro l
  induction l with
  | nil =>
    intro pre g b out hfa hc
    have hbo : (childValue g b, (g.getD b d0).state, b) = out := by
      simpa [bestMoveAux] using hc
    exact ⟨b, hbo.symm, by simpa using hfa⟩
  | cons a rest ih =>
    intro pre g b out hfa hc
    by_cases hcmp : childValue g a > childValue g b
    · have heq : bestMoveAux g (a :: rest) (some (childValue g b, (g.getD b d0).state, b)) =
          bestMoveAux g rest (some (childValue g a, (g.getD a d0).state, a)) := by
        show (if childValue g a > childValue g b then
            bestMoveAux g rest (some (childValue g a, (g.getD a d0).state, a))
          else bestMoveAux g rest (some (childValue g b, (g.getD b d0).state, b))) =
          bestMoveAux g rest (some (childValue g a, (g.getD a d0).state, a))
        rw [if_pos hcmp]
      rw [heq] at hc
      obtain ⟨p0, q0, hsplit, hlt, hle⟩ := hfa
      have hfa2 : firstArgmax (childValue g) (pre ++ [a]) a := by
        refine ⟨pre, [], by simp, ?_, ?_⟩
        · intro j hj
          exact lt_of_le_of_lt (hle j hj) hcmp
        · intro j hj
          rcases List.mem_append.mp hj with hj | hj
          · exact le_of_lt (lt_of_le_of_lt (hle j hj) hcmp)
          · rw [List.mem_singleton.mp hj]
      obtain ⟨c, hco, hcfa⟩ := ih (pre ++ [a]) g a out hfa2 hc
      rw [List.append_assoc, List.singleton_append] at hcfa
      exact ⟨c, hco, hcfa⟩
    · have heq : bestMoveAux g (a :: rest) (some (childValue g b, (g.getD b d0).state, b)) =
          bestMoveAux g rest (some (childValue g b, (g.getD b d0).state, b)) := by
        show (if childValue g a > childValue g b then
            bestMoveAux g rest (some (childValue g a, (g.getD a d0).state, a))
          else bestMoveAux g rest (some (childValue g b, (g.getD b d0).state, b))) =
          bestMoveAux g rest (some (childValue g b, (g.getD b d0).state, b))
        rw [if_neg hcmp]
      rw [heq] at hc
      obtain ⟨p0, q0, hsplit, hlt, hle⟩ := hfa
      have hfa2 : firstArgmax (childValue g) (pre ++ [a]) b := by
        refine ⟨p0, q0 ++ [a], by rw [hsplit]; simp, hlt, ?_⟩
        intro j hj
        rcases List.mem_append.mp hj with hj | hj
        · exact hle j hj
        · rw [List.mem_singleton.mp hj]
          exact not_lt.mp hcmp
      obtain ⟨c, hco, hcfa⟩ := ih (pre ++ [a]) g b out hfa2 hc
      rw [List.append_assoc, List.singleton_append] at hcfa
      exact ⟨c, hco, hcfa⟩

theorem bestMove_spec (g : Graph) (root : ℕ)
    (hne : (g.getD root d0).children ≠ []) :
    ∃ c, bestMove g root = some (childValue g c, (g.getD c d0).state, c) ∧
      firstArgmax (childValue g) (g.getD root d0).children c := by
  obtain ⟨a, rest, hsplit⟩ := List.exists_cons_of_ne_nil hne
  have hstep : bestMove g root =
      bestMoveAux g rest (some (childValue g a, (g.getD a d0).state, a)) := by
    rw [bestMove, hsplit]
    rfl
  obtain ⟨out, hout⟩ := bestMoveAux_some_isSome rest g (childValue g a) (g.getD a d0).state a
  have hfa : firstArgmax (childValue g) [a] a :=
    ⟨[], [], rfl, by simp, by intro j hj; rw [List.mem_singleton.mp hj]⟩
  obtain ⟨c, hco, hcfa⟩ := bestMoveAux_argmax rest [a] g a out hfa hout
  rw [List.singleton_append, ← hsplit] at hcfa
  exact ⟨c, by rw [hstep, hout, hco], hcfa⟩

/-- C4: after the search loop, the extraction returns `some (value, state,
index)` where the index is the first root child attaining the maximal plain
average `score/visits`, the state and value are that child's; and whenever
every root child carries at least one visit and a score that is a sum of
outcome codes in `{0,1,2}` (hence at most `2·visits`), the returned value is
a well-defined average lying in `[0, 2]`. -/
theorem C4_best_move (g : Graph) (root : ℕ) (h : (g.getD root d0).children ≠ []) :
    ∃ c, bestMove g root = some (childValue g c, (g.getD c d0).state, c) ∧
      c ∈ (g.getD root d0).children ∧
      firstArgmax (childValue g) (g.getD root d0).children c ∧
      ((∀ ch ∈ (g.getD root d0).children,
          1 ≤ (g.getD ch d0).nb_visit ∧
          (g.getD ch d0).score ≤ 2 * (g.getD ch d0).nb_visit) →
        0 ≤ childValue g c ∧ childValue g c ≤ 2) := by
  obtain ⟨c, hbm, hfa⟩ := bestMove_spec g root h
  have hmem : c ∈ (g.getD root d0).children := by
    obtain ⟨pre, post, hsplit, -, -⟩ := hfa
    rw [hsplit]
    exact List.mem_append.mpr (Or.inr (List.mem_cons_self _ _))
  refine ⟨c, hbm, hmem, hfa, ?_⟩
  intro hbounds
  obtain ⟨hv, hs⟩ := hbounds c hmem
  have hvpos : (0 : ℝ) < ((g.getD c d0).nb_visit : ℝ) := by
    exact_mod_cast Nat.lt_of_lt_of_le Nat.zero_lt_one hv
  constructor
  · exact div_nonneg (by positivity) (le_of_lt hvpos)
  · rw [childValue, div_le_iff₀ hvpos]
    have : ((g.getD c d0).score : ℝ) ≤ ((2 * (g.getD c d0).nb_visit : ℕ) : ℝ) := by
      exact_mod_cast hs
    rw [Nat.cast_mul] at this
    simpa [mul_comm] using this

/-- Witness for C4 on the two-node arena `gChain`. -/
theorem C4_best_move_witness :
    ∃ c, bestMove gChain 0 = some (childValue gChain c, (gChain.getD c d0).state, c) ∧
      c ∈ (gChain.getD 0 d0).children ∧
      firstArgmax (childValue gChain) (gChain.getD 0 d0).children c ∧
      ((∀ ch ∈ (gChain.getD 0 d0).children,
          1 ≤ (gChain.getD ch d0).nb_visit ∧
          (gChain.getD ch d0).score ≤ 2 * (gChain.getD ch d0).nb_visit) →
        0 ≤ childValue gChain c ∧ childValue gChain c ≤ 2) :=
  C4_best_move gChain 0 (by decide)

end Connect4

namespace Connect4

/-- C7: after a human move produced state `s`, if some child of the root has
exactly state `s`, that child becomes the new root and the arena — hence the
child's visits, score, children and entire subtree — is left unchanged; if no
child matches, the root index is unchanged and only the root node's `state`
field is overwritten, its visits, score, children, parent and status being
retained, with every other node untouched. -/
theorem C7_tree_reuse (g : Graph) (root : ℕ) (s : ℕ × ℕ) (hb : root < g.length)
    (hch : ∀ c ∈ (g.getD root d0).children, c ≠ root) :
    (∀ c, (g.getD root d0).children.find? (fun k => (g.getD k d0).state == s) = some c →
      update_root g root s = (c, g)) ∧
    ((g.getD root d0).children.find? (fun k => (g.getD k d0).state == s) = none →
      update_root g root s = (root, g.set root { g.getD root d0 with state := s }) ∧
      ((g.set root { g.getD root d0 with state := s }).getD root d0).state = s ∧
      ((g.set root { g.getD root d0 with state := s }).getD root d0).children
          = (g.getD root d0).children ∧
      ((g.set root { g.getD root d0 with state := s }).getD root d0).score
          = (g.getD root d0).score ∧
      ((g.set root { g.getD root d0 with state := s }).getD root d0).nb_visit
          = (g.getD root d0).nb_visit ∧
      ((g.set root { g.getD root d0 with state := s }).getD root d0).parent
          = (g.getD root d0).parent ∧
      ((g.set root { g.getD root d0 with state := s }).getD root d0).status
          = (g.getD root d0).status ∧
      ∀ m, m ≠ root →
        (g.set root { g.getD root d0 with state := s }).getD m d0 = g.getD m d0) := by
  constructor
  · intro c hc
    have hcne : c ≠ root := hch c (List.mem_of_find?_eq_some hc)
    have hu : update_root g root s =
        (if root = c then (c, g.set c { g.getD c d0 with state := s }) else (c, g)) := by
      rw [update_root, hc]
    rw [hu, if_neg (fun h => hcne h.symm)]
  · intro hfind
    have hu : update_root g root s =
        (root, g.set root { g.getD root d0 with state := s }) := by
      rw [update_root, hfind]
      simp
    refine ⟨hu, ?_, ?_, ?_, ?_, ?_, ?_, ?_⟩
    · rw [getD_set_self g root _ hb]
    · rw [getD_set_self g root _ hb]
    · rw [getD_set_self g root _ hb]
    · rw [getD_set_self g root _ hb]
    · rw [getD_set_self g root _ hb]
    · rw [getD_set_self g root _ hb]
    · intro m hm
      exact getD_set_ne g root _ m (fun h => hm h.symm)

/-- Witness for C7: the human move to state `(0,1)` matches `gChain`'s only
child, so that child becomes the root with the arena untouched. -/
theorem C7_tree_reuse_witness : update_root gChain 0 (0, 1) = (1, gChain) :=
  (C7_tree_reuse gChain 0 (0, 1) (by decide) (by decide)).1 1 (by decide)

end Connect4

namespace Connect4

/-! ### Search-loop invariants (claims C9, C10) -/

theorem selection_descend_none (fuel node : ℕ) (g : Graph)
    (hst : (g.getD node d0).status = STATUS.PLAYING)
    (hne : (get_moves (g.getD node d0).state.1 (g.getD node d0).state.2).length ≠ 0)
    (heq : (get_moves (g.getD node d0).state.1 (g.getD node d0).state.2).length
      = (g.getD node d0).children.length)
    (hbc : bestChildAux g node (g.getD node d0).children none none = none) :
    selection (fuel + 1) node g = (node, g) := by
  rw [selection_unfold, if_neg (not_not_intro hst), if_neg hne, if_pos heq, hbc]

theorem bestChildAux_mem : ∀ (l : List ℕ) (g : Graph) (n : ℕ) (acc : Option ℕ)
    (s : Option ℝ) (c : ℕ),
    bestChildAux g n l acc s = some c → c ∈ l ∨ acc = some c := by
  intro l
  induction l with
  | nil => intro g n acc s c h; right; simpa [bestChildAux] using h
  | cons a rest ih =>
    intro g n acc s c h
    cases s with
    | none =>
      have heq : bestChildAux g n (a :: rest) acc none =
          bestChildAux g n rest (some a) (some (uct g n a)) := rfl
      rw [heq] at h
      rcases ih g n _ _ c h with hm | hacc
      · exact Or.inl (List.mem_cons_of_mem _ hm)
      · exact Or.inl (Option.some.inj hacc ▸ List.mem_cons_self _ _)
    | some sv =>
      by_cases hcmp : uct g n a > sv
      · have heq : bestChildAux g n (a :: rest) acc (some sv) =
            bestChildAux g n rest (some a) (some (uct g n a)) := by
          show (if uct g n a > sv then bestChildAux g n rest (some a) (some (uct g n a))
            else bestChildAux g n rest acc (some sv)) =
            bestChildAux g n rest (some a) (some (uct g n a))
          rw [if_pos hcmp]
        rw [heq] at h
        rcases ih g n _ _ c h with hm | hacc
        · exact Or.inl (List.mem_cons_of_mem _ hm)
        · exact Or.inl (Option.some.inj hacc ▸ List.mem_cons_self _ _)
      · have heq : bestChildAux g n (a :: rest) acc (some sv) =
            bestChildAux g n rest acc (some sv) := by
          show (if uct g n a > sv then bestChildAux g n rest (some a) (some (uct g n a))
            else bestChildAux g n rest acc (some sv)) =
            bestChildAux g n rest acc (some sv)
          rw [if_neg hcmp]
        rw [heq] at h
        rcases ih g n _ _ c h with hm | hacc
        · exact Or.inl (List.mem_cons_of_mem _ hm)
        · exact Or.inr hacc

theorem expandGraph_length (g : Graph) (node : ℕ) :
    (expandGraph g node).length = g.length + 1 := by
  rw [expandGraph, List.length_set, List.length_append]
  rfl

theorem expandGraph_getD_new (g : Graph) (node : ℕ) (hb : node < g.length) :
    (expandGraph g node).getD g.length d0 = expandChild g node := by
  rw [expandGraph, getD_set_ne _ _ _ _ (by omega),
    List.getD_append_right _ _ _ _ (le_refl _)]
  simp

theorem expandGraph_getD_node (g : Graph) (node : ℕ) (hb : node < g.length) :
    (expandGraph g node).getD node d0 =
      { g.getD node d0 with children := (g.getD node d0).children ++ [g.length] } := by
  have hb2 : node < ((g ++ [expandChild g node]) : Graph).length := by
    rw [List.length_append]
    omega
  rw [expandGraph, getD_set_self _ _ _ hb2]

theorem expandGraph_getD_other (g : Graph) (node m : ℕ) (hm : m < g.length)
    (hne : m ≠ node) :
    (expandGraph g node).getD m d0 = g.getD m d0 := by
  rw [expandGraph, getD_set_ne _ _ _ _ (fun hc => hne hc.symm),
    List.getD_append _ _ _ _ hm]

theorem selection_cases : ∀ (fuel node : ℕ) (g : Graph), node < g.length → WFgraph g →
    (∃ w, w < g.length ∧ selection fuel node g = (w, g)) ∨
    (∃ nn, nn < g.length ∧ selection fuel node g = (g.length, expandGraph g nn)) := by
  intro fuel
  induction fuel with
  | zero => intro node g hb _; exact Or.inl ⟨node, hb, rfl⟩
  | succ fuel ih =>
    intro node g hb hwf
    by_cases hst : (g.getD node d0).status = STATUS.PLAYING
    · by_cases hnil : (get_moves (g.getD node d0).state.1 (g.getD node d0).state.2).length = 0
      · exact Or.inl ⟨node, hb, selection_nomoves fuel node g hst hnil⟩
      · by_cases heq : (get_moves (g.getD node d0).state.1 (g.getD node d0).state.2).length
            = (g.getD node d0).children.length
        · have hchne : (g.getD node d0).children ≠ [] := by
            intro hc
            rw [hc, List.length_nil] at heq
            exact hnil heq
          obtain ⟨c, hc, -⟩ := bestChild_spec g node _ hchne
          have hcmem : c ∈ (g.getD node d0).children := by
            rcases bestChildAux_mem _ g node none none c hc with hm | hacc
            · exact hm
            · exact absurd hacc (by simp)
          have hclt : c < g.length := (hwf node hb).2 c hcmem
          rw [selection_descend fuel node c g hst hnil heq hc]
          exact ih c g hclt hwf
        · exact Or.inr ⟨node, hb, selection_expand fuel node g hst hnil heq⟩
    · exact Or.inl ⟨node, hb, selection_terminal fuel node g hst⟩

theorem Inv_backprop (fuel node : ℕ) (g : Graph) (s : ℕ) (hInv : Inv g) :
    Inv (backpropagation fuel node g s) := by
  intro n hn
  rw [backprop_length] at hn
  rw [(backprop_fields fuel node g s n).2.1]
  exact ⟨le_trans (hInv n hn).1 (backprop_visit_mono fuel node g s n),
    fun c hc => le_trans ((hInv n hn).2 c hc) (backprop_visit_mono fuel node g s c)⟩

theorem WF_backprop (fuel node : ℕ) (g : Graph) (s : ℕ) (hwf : WFgraph g) :
    WFgraph (backpropagation fuel node g s) := by
  intro n hn
  rw [backprop_length] at hn
  rw [(backprop_fields fuel node g s n).2.2.1, (backprop_fields fuel node g s n).2.1,
    backprop_length]
  exact hwf n hn

theorem WF_expandGraph (g : Graph) (node : ℕ) (hb : node < g.length) (hwf : WFgraph g) :
    WFgraph (expandGraph g node) := by
  intro n hn
  rw [expandGraph_length g node] at hn
  rw [expandGraph_length g node]
  by_cases hnew : n = g.length
  · subst hnew
    rw [expandGraph_getD_new g node hb]
    constructor
    · intro p hp
      have : node = p := by simpa [expandChild] using hp
      omega
    · intro c hc
      simp [expandChild] at hc
  · have hn2 : n < g.length := by omega
    by_cases hnn : n = node
    · subst hnn
      rw [expandGraph_getD_node g n hb]
      constructor
      · intro p hp
        exact (hwf n hn2).1 p hp
      · intro c hc
        rcases List.mem_append.mp hc with hc | hc
        · have := (hwf n hn2).2 c hc
          omega
        · rw [List.mem_singleton.mp hc]
          omega
    · rw [expandGraph_getD_other g node n hn2 hnn]
      refine ⟨(hwf n hn2).1, fun c hc => ?_⟩
      have := (hwf n hn2).2 c hc
      omega

theorem expandGraph_visit_eq (g : Graph) (node m : ℕ) (hm : m < g.length)
    (hb : node < g.length) :
    ((expandGraph g node).getD m d0).nb_visit = (g.getD m d0).nb_visit := by
  by_cases hnn : m = node
  · subst hnn
    rw [expandGraph_getD_node g m hb]
  · rw [expandGraph_getD_other g node m hm hnn]

end Connect4

namespace Connect4

theorem mcstIteration_eq (fuelS fuelSim : ℕ) (rng : ℕ → ℕ) (g : Graph) (root : ℕ) :
    mcstIteration fuelS fuelSim rng g root =
      backpropagation (selection fuelS root g).2.length (selection fuelS root g).1
        (selection fuelS root g).2
        ((simulation fuelSim rng
          ((selection fuelS root g).2.getD (selection fuelS root g).1 d0).state.1
          ((selection fuelS root g).2.getD (selection fuelS root g).1 d0).state.2).getD 0) := rfl

theorem Inv_expand_backprop (g : Graph) (nn f s : ℕ)
    (hInv : Inv g) (hwf : WFgraph g) (hn : nn < g.length) (hf : 1 ≤ f) :
    Inv (backpropagation (f + 1) g.length (expandGraph g nn) s) := by
  have hpar : ((expandGraph g nn).getD g.length d0).parent = some nn := by
    rw [expandGraph_getD_new g nn hn]
    rfl
  have hunf := backprop_unfold_some f g.length (expandGraph g nn) s nn hpar
  intro n hn2
  rw [backprop_length, expandGraph_length] at hn2
  have hflds := backprop_fields (f + 1) g.length (expandGraph g nn) s n
  rw [hflds.2.1]
  have hmono : ∀ m, ((expandGraph g nn).getD m d0).nb_visit ≤
      ((backpropagation (f + 1) g.length (expandGraph g nn) s).getD m d0).nb_visit :=
    fun m => backprop_visit_mono _ _ _ _ m
  have hvisit_ge : ∀ m, m < g.length →
      ((expandGraph g nn).getD m d0).nb_visit = (g.getD m d0).nb_visit :=
    fun m hm => expandGraph_visit_eq g nn m hm hn
  have hnewvisit : 1 ≤ ((backpropagation (f + 1) g.length (expandGraph g nn) s).getD
      g.length d0).nb_visit := by
    have := backprop_start_visit (f + 1) g.length (expandGraph g nn) s (by omega)
      (by rw [expandGraph_length]; omega)
    omega
  have hnnvisit : (g.getD nn d0).nb_visit + 1 ≤
      ((backpropagation (f + 1) g.length (expandGraph g nn) s).getD nn d0).nb_visit := by
    rw [hunf]
    have hstart := backprop_start_visit f nn
      ((expandGraph g nn).set g.length (bumpNode (expandGraph g nn) g.length s))
      ([2, 1, 0].getD s 0) hf
      (by rw [List.length_set, expandGraph_length]; omega)
    have hsame : (((expandGraph g nn).set g.length
        (bumpNode (expandGraph g nn) g.length s)).getD nn d0).nb_visit
        = (g.getD nn d0).nb_visit := by
      rw [getD_set_ne _ _ _ _ (by omega)]
      exact hvisit_ge nn hn
    omega
  by_cases hnew : n = g.length
  · subst hnew
    rw [expandGraph_getD_new g nn hn]
    constructor
    · simp [expandChild]
    · intro c hc
      simp [expandChild] at hc
  · have hn3 : n < g.length := by omega
    by_cases hnn2 : n = nn
    · subst hnn2
      rw [expandGraph_getD_node g n hn]
      constructor
      · have hlen2 : ({ g.getD n d0 with
            children := (g.getD n d0).children ++ [g.length] } : Node).children.length
            = (g.getD n d0).children.length + 1 := by simp
        rw [hlen2]
        have hold := (hInv n hn3).1
        omega
      · intro c hc
        rcases List.mem_append.mp hc with hc | hc
        · have hclt : c < g.length := (hwf n hn3).2 c hc
          have h1 : 1 ≤ (g.getD c d0).nb_visit := (hInv n hn3).2 c hc
          have h2 := hmono c
          rw [hvisit_ge c hclt] at h2
          omega
        · rw [List.mem_singleton.mp hc]
          exact hnewvisit
    · rw [expandGraph_getD_other g nn n hn3 hnn2]
      constructor
      · have h2 := hmono n
        rw [hvisit_ge n hn3] at h2
        have hold := (hInv n hn3).1
        omega
      · intro c hc
        have hclt : c < g.length := (hwf n hn3).2 c hc
        have h1 : 1 ≤ (g.getD c d0).nb_visit := (hInv n hn3).2 c hc
        have h2 := hmono c
        rw [hvisit_ge c hclt] at h2
        omega

theorem Inv_iteration (fuelS fuelSim : ℕ) (rng : ℕ → ℕ) (g : Graph) (root : ℕ)
    (hInv : Inv g) (hwf : WFgraph g) (hb : root < g.length) :
    Inv (mcstIteration fuelS fuelSim rng g root) ∧
    WFgraph (mcstIteration fuelS fuelSim rng g root) ∧
    g.length ≤ (mcstIteration fuelS fuelSim rng g root).length := by
  rw [mcstIteration_eq]
  rcases selection_cases fuelS root g hb hwf with ⟨w, hwlt, hsel⟩ | ⟨nn, hnlt, hsel⟩
  · rw [hsel]
    exact ⟨Inv_backprop _ _ _ _ hInv, WF_backprop _ _ _ _ hwf,
      le_of_eq (backprop_length _ _ _ _).symm⟩
  · rw [hsel]
    have hlen : (expandGraph g nn).length = g.length + 1 := expandGraph_length g nn
    refine ⟨?_, ?_, ?_⟩
    · show Inv (backpropagation (expandGraph g nn).length g.length (expandGraph g nn)
        ((simulation fuelSim rng ((expandGraph g nn).getD g.length d0).state.1
          ((expandGraph g nn).getD g.length d0).state.2).getD 0))
      rw [hlen]
      exact Inv_expand_backprop g nn g.length _ hInv hwf hnlt (by omega)
    · exact WF_backprop _ _ _ _ (WF_expandGraph g nn hnlt hwf)
    · show g.length ≤ (backpropagation (expandGraph g nn).length g.length (expandGraph g nn)
        ((simulation fuelSim rng ((expandGraph g nn).getD g.length d0).state.1
          ((expandGraph g nn).getD g.length d0).state.2).getD 0)).length
      rw [backprop_length, hlen]
      omega

theorem Inv_gFull : Inv gFull := by
  intro n hn
  have hn8 : n < 8 := by simpa [gFull] using hn
  interval_cases n <;> constructor <;> simp [gFull, rootN, childN, d0] <;> decide

theorem WF_gFull : WFgraph gFull := by
  intro n hn
  have hn8 : n < 8 := by simpa [gFull] using hn
  interval_cases n <;> refine ⟨?_, ?_⟩ <;> intro p hp <;>
    simp_all [gFull, rootN, childN, d0] <;> omega

/-- C9: whenever selection is about to evaluate UCT values — at a `PLAYING`
node with a non-empty legal-move list whose child count equals the legal-move
count — the visit-count invariant gives the parent at least as many visits as
children (hence at least one, so `log2` is taken at a positive argument) and
every child at least one visit (so the division is never by zero); and that
invariant, together with arena well-formedness, is preserved by every full
search iteration, because backpropagation starting at the iteration's working
node increments the new child and all its ancestors. -/
theorem C9_uct_safety (g : Graph) (node root fuelS fuelSim : ℕ) (rng : ℕ → ℕ)
    (hInv : Inv g) (hwf : WFgraph g) (hnode : node < g.length) (hroot : root < g.length) :
    ((g.getD node d0).status = STATUS.PLAYING →
      get_moves (g.getD node d0).state.1 (g.getD node d0).state.2 ≠ [] →
      (get_moves (g.getD node d0).state.1 (g.getD node d0).state.2).length
          = (g.getD node d0).children.length →
      1 ≤ (g.getD node d0).nb_visit ∧
      (g.getD node d0).children.length ≤ (g.getD node d0).nb_visit ∧
      ∀ c ∈ (g.getD node d0).children, 1 ≤ (g.getD c d0).nb_visit) ∧
    Inv (mcstIteration fuelS fuelSim rng g root) ∧
    WFgraph (mcstIteration fuelS fuelSim rng g root) := by
  refine ⟨?_, (Inv_iteration fuelS fuelSim rng g root hInv hwf hroot).1,
    (Inv_iteration fuelS fuelSim rng g root hInv hwf hroot).2.1⟩
  intro hst hne heq
  have hchpos : 0 < (g.getD node d0).children.length := by
    rw [← heq]
    exact List.length_pos.mpr hne
  have h1 := (hInv node hnode).1
  exact ⟨by omega, h1, (hInv node hnode).2⟩

/-- Witness for C9 on the fully expanded `gFull` arena. -/
theorem C9_uct_safety_witness :
    1 ≤ (gFull.getD 0 d0).nb_visit ∧
    (gFull.getD 0 d0).children.length ≤ (gFull.getD 0 d0).nb_visit ∧
    ∀ c ∈ (gFull.getD 0 d0).children, 1 ≤ (gFull.getD c d0).nb_visit :=
  (C9_uct_safety gFull 0 0 1 1 (fun _ => 0) Inv_gFull WF_gFull (by decide) (by decide)).1
    (by decide) (by decide) (by decide)

end Connect4

namespace Connect4

theorem selection_children_keep : ∀ (fuel node : ℕ) (g : Graph) (m : ℕ), m < g.length →
    g.length ≤ (selection fuel node g).2.length ∧
    ((g.getD m d0).children ≠ [] → ((selection fuel node g).2.getD m d0).children ≠ []) := by
  intro fuel
  induction fuel with
  | zero => intro node g m _; exact ⟨le_refl _, id⟩
  | succ fuel ih =>
    intro node g m hm
    by_cases hst : (g.getD node d0).status = STATUS.PLAYING
    · by_cases hnil : (get_moves (g.getD node d0).state.1 (g.getD node d0).state.2).length = 0
      · rw [selection_nomoves fuel node g hst hnil]
        exact ⟨le_refl _, id⟩
      · by_cases heq : (get_moves (g.getD node d0).state.1 (g.getD node d0).state.2).length
            = (g.getD node d0).children.length
        · cases hbc : bestChildAux g node (g.getD node d0).children none none with
          | some c =>
            rw [selection_descend fuel node c g hst hnil heq hbc]
            exact ih c g m hm
          | none =>
            rw [selection_descend_none fuel node g hst hnil heq hbc]
            exact ⟨le_refl _, id⟩
        · rw [selection_expand fuel node g hst hnil heq]
          refine ⟨by rw [expandGraph_length]; omega, ?_⟩
          intro hne
          by_cases hmn : m = node
          · subst hmn
            rw [expandGraph_getD_node g m hm]
            simp
          · rw [expandGraph_getD_other g node m hm hmn]
            exact hne
    · rw [selection_terminal fuel node g hst]
      exact ⟨le_refl _, id⟩

theorem iteration_children_keep (fuelS fuelSim : ℕ) (rng : ℕ → ℕ) (g : Graph)
    (root m : ℕ) (hm : m < g.length) :
    g.length ≤ (mcstIteration fuelS fuelSim rng g root).length ∧
    ((g.getD m d0).children ≠ [] →
      ((mcstIteration fuelS fuelSim rng g root).getD m d0).children ≠ []) := by
  rw [mcstIteration_eq]
  have hsel := selection_children_keep fuelS root g m hm
  constructor
  · rw [backprop_length]
    exact hsel.1
  · intro hne
    rw [(backprop_fields _ _ _ _ m).2.1]
    exact hsel.2 hne

theorem mcstLoop_eq_succ (fuelS fuelSim : ℕ) (rng : ℕ → ℕ → ℕ) (root n : ℕ) (g : Graph) :
    mcstLoop fuelS fuelSim rng root (n + 1) g =
      mcstLoop fuelS fuelSim rng root n (mcstIteration fuelS fuelSim (rng n) g root) := rfl

theorem mcstLoop_children_keep (fuelS fuelSim : ℕ) (rng : ℕ → ℕ → ℕ) (root : ℕ) :
    ∀ (N : ℕ) (g : Graph), root < g.length → (g.getD root d0).children ≠ [] →
    root < (mcstLoop fuelS fuelSim rng root N g).length ∧
    ((mcstLoop fuelS fuelSim rng root N g).getD root d0).children ≠ [] := by
  intro N
  induction N with
  | zero => intro g hr hne; exact ⟨hr, hne⟩
  | succ N ih =>
    intro g hr hne
    rw [mcstLoop_eq_succ]
    obtain ⟨hlen, hkeep⟩ := iteration_children_keep fuelS fuelSim (rng N) g root root hr
    exact ih _ (lt_of_lt_of_le hr hlen) (hkeep hne)

theorem bestMove_isSome (g : Graph) (root : ℕ)
    (h : (g.getD root d0).children ≠ []) : (bestMove g root).isSome = true := by
  obtain ⟨c, hbm, -⟩ := bestMove_spec g root h
  rw [hbm]
  rfl

/-- C10 (amended): if `mcst` is invoked on an in-bounds root whose status is
`PLAYING` over a well-formed non-full board, then — whenever the root is not
fully expanded, in particular on a fresh root with no children — the first
iteration expands a child of the root; and in every case, after at least one
iteration the root has at least one child, so the final best-move extraction
returns a value (the childless-root unwrap is unreachable). -/
theorem C10_search_safety (g : Graph) (root fuelS fuelSim N : ℕ) (rng : ℕ → ℕ → ℕ)
    (hroot : root < g.length)
    (hst : (g.getD root d0).status = STATUS.PLAYING)
    (hwfst : wfState (g.getD root d0).state.1 (g.getD root d0).state.2)
    (hnotfull : (g.getD root d0).state.1 ||| (g.getD root d0).state.2 ≠ FULL_GRID)
    (hN : 1 ≤ N) (hfS : 1 ≤ fuelS) :
    ((get_moves (g.getD root d0).state.1 (g.getD root d0).state.2).length
        ≠ (g.getD root d0).children.length →
      selection fuelS root g = (g.length, expandGraph g root) ∧
      ((expandGraph g root).getD g.length d0).parent = some root) ∧
    ((mcstLoop fuelS fuelSim rng root N g).getD root d0).children ≠ [] ∧
    (bestMove (mcstLoop fuelS fuelSim rng root N g) root).isSome = true := by
  have hmne : get_moves (g.getD root d0).state.1 (g.getD root d0).state.2 ≠ [] :=
    get_moves_ne_nil hwfst hnotfull
  have hmlen : (get_moves (g.getD root d0).state.1 (g.getD root d0).state.2).length ≠ 0 :=
    fun hc => hmne (List.length_eq_zero.mp hc)
  obtain ⟨f, rfl⟩ : ∃ f, fuelS = f + 1 := ⟨fuelS - 1, by omega⟩
  obtain ⟨n, rfl⟩ : ∃ n, N = n + 1 := ⟨N - 1, by omega⟩
  have hfirst : root < (mcstIteration (f + 1) fuelSim (rng n) g root).length ∧
      ((mcstIteration (f + 1) fuelSim (rng n) g root).getD root d0).children ≠ [] := by
    by_cases heq : (get_moves (g.getD root d0).state.1 (g.getD root d0).state.2).length
        = (g.getD root d0).children.length
    · have hchne : (g.getD root d0).children ≠ [] := by
        intro hc
        rw [hc, List.length_nil] at heq
        exact hmlen heq
      obtain ⟨hlen, hkeep⟩ := iteration_children_keep (f + 1) fuelSim (rng n) g root root hroot
      exact ⟨lt_of_lt_of_le hroot hlen, hkeep hchne⟩
    · rw [mcstIteration_eq, selection_expand f root g hst hmlen heq]
      constructor
      · rw [backprop_length]
        show root < (expandGraph g root).length
        rw [expandGraph_length]
        omega
      · rw [(backprop_fields _ _ _ _ root).2.1]
        show ((expandGraph g root).getD root d0).children ≠ []
        rw [expandGraph_getD_node g root hroot]
        simp
  have hloop := mcstLoop_children_keep (f + 1) fuelSim rng root n _ hfirst.1 hfirst.2
  refine ⟨?_, ?_, ?_⟩
  · intro hneq
    refine ⟨selection_expand f root g hst hmlen hneq, ?_⟩
    rw [expandGraph_getD_new g root hroot]
    rfl
  · rw [mcstLoop_eq_succ]
    exact hloop.2
  · rw [mcstLoop_eq_succ]
    exact bestMove_isSome _ root hloop.2

/-- Witness for C10 (amended) on the fresh one-node arena. -/
theorem C10_search_safety_witness :
    ((mcstLoop 1 43 (fun _ _ => 0) 0 1 init_graph).getD 0 d0).children ≠ [] :=
  (C10_search_safety init_graph 0 1 43 1 (fun _ _ => 0) (by decide) (by decide)
    ⟨rfl, rfl⟩ (by decide) (by decide) (by decide)).2.1

theorem bestChildAux_tie : ∀ (l : List ℕ) (g : Graph) (n b : ℕ),
    (∀ c ∈ l, uct g n c = uct g n b) →
    bestChildAux g n l (some b) (some (uct g n b)) = some b := by
  intro l
  induction l with
  | nil => intro g n b _; rfl
  | cons a rest ih =>
    intro g n b h
    have ha : uct g n a = uct g n b := h a (List.mem_cons_self _ _)
    have heq : bestChildAux g n (a :: rest) (some b) (some (uct g n b)) =
        bestChildAux g n rest (some b) (some (uct g n b)) := by
      show (if uct g n a > uct g n b then bestChildAux g n rest (some a) (some (uct g n a))
        else bestChildAux g n rest (some b) (some (uct g n b))) =
        bestChildAux g n rest (some b) (some (uct g n b))
      rw [if_neg (by rw [ha]; exact lt_irrefl _)]
    rw [heq]
    exact ih g n b (fun c hc => h c (List.mem_cons_of_mem _ hc))

theorem gFull_bestChild : bestChildAux gFull 0 [1, 2, 3, 4, 5, 6, 7] none none = some 1 := by
  have h1 : bestChildAux gFull 0 [1, 2, 3, 4, 5, 6, 7] none none =
      bestChildAux gFull 0 [2, 3, 4, 5, 6, 7] (some 1) (some (uct gFull 0 1)) := rfl
  rw [h1]
  refine bestChildAux_tie _ gFull 0 1 ?_
  intro c hc
  fin_cases hc <;> rfl

/-- C10 counterexample: on the fully expanded `gFull` root — which satisfies
every stated precondition (in bounds, `PLAYING`, well-formed, non-full) — the
first iteration's selection descends into child 1 and expands a grandchild:
exactly one node is created, its parent is node 1 rather than the root, and
the root's child list is unchanged, so the first iteration does not expand a
child of the root. -/
theorem C10_counterexample :
    (gFull.getD 0 d0).status = STATUS.PLAYING ∧
    wfState (gFull.getD 0 d0).state.1 (gFull.getD 0 d0).state.2 ∧
    (gFull.getD 0 d0).state.1 ||| (gFull.getD 0 d0).state.2 ≠ FULL_GRID ∧
    (selection 2 0 gFull).1 = gFull.length ∧
    (selection 2 0 gFull).2.length = gFull.length + 1 ∧
    ((selection 2 0 gFull).2.getD gFull.length d0).parent = some 1 ∧
    ((selection 2 0 gFull).2.getD 0 d0).children = [1, 2, 3, 4, 5, 6, 7] := by
  have hstep1 : selection 2 0 gFull = selection 1 1 gFull :=
    selection_descend 1 0 1 gFull (by decide) (by decide) (by decide) gFull_bestChild
  have hstep2 : selection 1 1 gFull = (gFull.length, expandGraph gFull 1) :=
    selection_expand 0 1 gFull (by decide) (by decide) (by decide)
  refine ⟨by decide, ⟨rfl, rfl⟩, by decide, ?_, ?_, ?_, ?_⟩
  · rw [hstep1, hstep2]
  · rw [hstep1, hstep2]
    decide
  · rw [hstep1, hstep2]
    decide
  · rw [hstep1, hstep2]
    decide

end Connect4
